import Mathlib

/-!
Verification development for the TKDojang content-correction scripts.

Python strings are modelled as lists of Unicode code points (`List Nat`),
with the ASCII case rules that Python's `str.lower` / `str.upper` /
`str.capitalize` implement on the ASCII range (the content these scripts
process is ASCII apart from the degree sign, which is cased by neither).
Python dicts (insertion-ordered, unique keys) are modelled as association
lists; `json` trees as an inductive type.
-/

namespace TKD

/-- A text value: the list of code points of a Python `str`. -/
abbrev Str := List Nat

/-- Encode a Lean string literal as its code points, for concrete inputs. -/
def enc (s : String) : Str := s.data.map Char.toNat

/-- Python regex `\w` on the ASCII range: letters, digits, underscore. -/
def isW (n : Nat) : Bool :=
  (65 ≤ n && n ≤ 90) || (97 ≤ n && n ≤ 122) || (48 ≤ n && n ≤ 57) || (n == 95)

/-- Whitespace for Python `str.split()` / `str.strip()` (ASCII range). -/
def isSpaceCp (n : Nat) : Bool :=
  n == 32 || n == 9 || n == 10 || n == 13 || n == 11 || n == 12

/-- ASCII decimal digit, as tested by Python `str.isdigit` on ASCII text. -/
def isDigitCp (n : Nat) : Bool := 48 ≤ n && n ≤ 57

/-- ASCII upper-case letter, as tested by Python `str.isupper` on one ASCII character. -/
def isUpperCp (n : Nat) : Bool := 65 ≤ n && n ≤ 90

/-- Lower-case one code point (Python `str.lower`, ASCII range). -/
def toLowerCp (n : Nat) : Nat := if 65 ≤ n && n ≤ 90 then n + 32 else n

/-- Upper-case one code point (Python `str.upper`, ASCII range). -/
def toUpperCp (n : Nat) : Nat := if 97 ≤ n && n ≤ 122 then n - 32 else n

/-- Python `str.lower` (ASCII range). -/
def lowerStr (s : Str) : Str := s.map toLowerCp

/-- Python `str.capitalize` (ASCII range): first code point upper-cased,
    every later one lower-cased. -/
def capitalizeStr : Str → Str
  | [] => []
  | c :: cs => toUpperCp c :: lowerStr cs

/-- Helper for the hyphen pre-pass: given the remainder after a maximal
    word-character run, decide whether the regex match continues — the
    remainder must start with a hyphen (code 45) followed by a word
    character — and if so return the second maximal run and the rest. -/
def matchTail : Str → Option (Str × Str)
  | [] => none
  | e :: rest =>
    if e = 45 then
      match rest with
      | [] => none
      | d :: t2 =>
        if isW d then some ((d :: t2).takeWhile isW, (d :: t2).dropWhile isW)
        else none
    else none

/-- Fuel-driven body of the hyphen pre-pass of `to_title_case`
    (`Scripts/fix-title-case.py`): one left-to-right pass of
    `re.sub(r'\b[\w]+-[\w]+\b', capitalize-both-sides, text)`.
    `prevW` records whether the previous character was a word character,
    so the forced word boundary `\b` at the start of the pattern holds
    exactly when `prevW` is false and the current character is a word
    character.  A match is a maximal word-character run, a hyphen (code 45)
    and a second maximal run; each side is `str.capitalize`d and the scan
    resumes after the match.  The fuel only forces structural recursion;
    `fuel = s.length` always suffices (each step consumes a character). -/
def hyphGo : Nat → Bool → Str → Str
  | _, _, [] => []
  | 0, _, s => s
  | fuel + 1, prevW, c :: cs =>
    if !prevW && isW c then
      match matchTail ((c :: cs).dropWhile isW) with
      | some (r2, t3) =>
        capitalizeStr ((c :: cs).takeWhile isW) ++ 45 ::
          capitalizeStr r2 ++ hyphGo fuel true t3
      | none => c :: hyphGo fuel true cs
    else c :: hyphGo fuel (isW c) cs

/-- The hyphen pre-pass (`re.sub(r'\b[\w]+-[\w]+\b', ..., text)`) of
    `to_title_case`. -/
def hyphenPass (s : Str) : Str := hyphGo s.length false s

/-- Fuel-driven body of Python `str.split()`: split on whitespace runs,
    dropping empty pieces.  `fuel = s.length` always suffices. -/
def splitGo : Nat → Str → List Str
  | _, [] => []
  | 0, s => [s]
  | fuel + 1, c :: cs =>
    if isSpaceCp c then splitGo fuel cs
    else (c :: cs.takeWhile (fun d => !isSpaceCp d)) ::
      splitGo fuel (cs.dropWhile (fun d => !isSpaceCp d))

/-- Python `str.split()` with no separator. -/
def splitWs (s : Str) : List Str := splitGo s.length s

/-- Python `' '.join`. -/
def joinSpace : List Str → Str
  | [] => []
  | [w] => w
  | w :: ws => w ++ 32 :: joinSpace ws

/-- Python `str.index`: position of the first occurrence (callers of
    `to_title_case` guard membership first, so the `[]` case is never hit). -/
def idxOf (n : Nat) : Str → Nat
  | [] => 0
  | c :: cs => if c == n then 0 else idxOf n cs + 1

/-- The closed small-word set of `to_title_case`. -/
def smallWords : List Str :=
  [enc "of", enc "the", enc "a", enc "an", enc "and", enc "or", enc "to",
   enc "in", enc "with"]

/-- The per-token step of `to_title_case` (the body of its token loop);
    `first` says whether the token has index 0.  Python's suffix expression
    `word[word.index(')')+1:] if word.index(')') < len(word)-1 else ''`
    equals `drop (index + 1)` in every case, which is how it is written here.
    Code 40 is `(`, 41 is `)`, 45 is `-`. -/
def procWord (first : Bool) (w : Str) : Str :=
  if 40 ∈ w ∧ 41 ∈ w then
    capitalizeStr (w.take (idxOf 40 w)) ++ 40 ::
      lowerStr ((w.take (idxOf 41 w)).drop (idxOf 40 w + 1)) ++ 41 ::
        w.drop (idxOf 41 w + 1)
  else if first then (if 45 ∈ w then w else capitalizeStr w)
  else if lowerStr w ∈ smallWords then lowerStr w
  else if 45 ∈ w ∨ isUpperCp (w.headD 0) then w
  else capitalizeStr w

/-- The token loop of `to_title_case`: only the first token is treated
    specially, so the loop index degenerates to a Boolean. -/
def procWords : Bool → List Str → List Str
  | _, [] => []
  | first, w :: ws => procWord first w :: procWords false ws

/-- `to_title_case` (`Scripts/fix-title-case.py`): hyphen pre-pass, whitespace
    tokenization, per-token casing, re-join with single spaces.  When the
    token list is empty (empty or all-whitespace input) Python returns the
    hyphen-processed text, which this mirrors. -/
def to_title_case (s : Str) : Str :=
  let t := hyphenPass s
  let ws := splitWs t
  if ws = [] then t else joinSpace (procWords true ws)

example : to_title_case (enc "low outer forearm block") = enc "Low Outer Forearm Block" := by decide
example : to_title_case (enc "3-step sparring") = enc "3-Step Sparring" := by decide
example : to_title_case (enc ")(") = enc ")()(" := by decide
example : to_title_case (enc ")()(") = enc ")()()(" := by decide

/-! ## JSON trees, dict primitives and the schema migrator
    (`Scripts/standardize_language_properties.py`) -/

/-- A parsed JSON document tree.  Mapping nodes keep Python dict semantics:
    insertion order, unique keys.  Keys are Lean strings (the scripts compare
    keys only for equality, never case-convert them); text leaves are `Str`. -/
inductive JVal : Type where
  | str (s : Str)
  | num (n : Int)
  | bool (b : Bool)
  | null
  | arr (xs : List JVal)
  | obj (fields : List (String × JVal))

/-- Python truthiness of a JSON value, as tested by
    `if value and value != ""` in `_rename_keys` (for every value the second
    conjunct is implied by the first, so the test is plain truthiness). -/
def truthy : JVal → Bool
  | .str s => !s.isEmpty
  | .num n => n != 0
  | .bool b => b
  | .null => false
  | .arr xs => !xs.isEmpty
  | .obj fs => !fs.isEmpty

/-- Dict lookup: `obj[k]` / `k in obj`. -/
def dictGet (k : String) (fields : List (String × JVal)) : Option JVal :=
  (fields.find? (fun p => p.1 == k)).map (fun p => p.2)

/-- Dict deletion `del obj[k]`.  Python dicts hold each key once, so
    removing every entry with key `k` agrees with removing the first. -/
def dictDel (k : String) (fields : List (String × JVal)) : List (String × JVal) :=
  fields.filter (fun p => p.1 ≠ k)

/-- Dict assignment `obj[k] = v`: overwrite in place when the key is
    present, append at the end otherwise. -/
def dictSet (k : String) (v : JVal) (fields : List (String × JVal)) :
    List (String × JVal) :=
  if (dictGet k fields).isSome then
    fields.map (fun p => if p.1 = k then (k, v) else p)
  else fields ++ [(k, v)]

/-- First loop of `LanguagePropertyStandardizer._rename_keys`: walk the
    mapping in order; a present source key with a truthy value is collected
    for renaming, a present source key with a falsy value is deleted on the
    spot.  Returns the collected `(old, new, value)` triples and the node
    after the deletions. -/
def phase1 : List (String × String) → List (String × JVal) →
    List (String × String × JVal) × List (String × JVal)
  | [], fields => ([], fields)
  | (old, new) :: rest, fields =>
    match dictGet old fields with
    | none => phase1 rest fields
    | some v =>
      if truthy v then
        let (c, o) := phase1 rest fields
        ((old, new, v) :: c, o)
      else phase1 rest (dictDel old fields)

/-- Second loop of `_rename_keys`: apply the collected renamings in order;
    `obj[new_key] = value` then `del obj[old_key]`, skipping mappings whose
    two keys coincide. -/
def phase2 : List (String × String × JVal) → List (String × JVal) →
    List (String × JVal)
  | [], fields => fields
  | (old, new, v) :: rest, fields =>
    if old ≠ new then phase2 rest (dictDel old (dictSet new v fields))
    else phase2 rest fields

/-- `LanguagePropertyStandardizer._rename_keys` on one mapping node. -/
def renameKeys (mapping : List (String × String)) (fields : List (String × JVal)) :
    List (String × JVal) :=
  let (c, o) := phase1 mapping fields
  phase2 c o

/-- The source keys of a mapping table. -/
def srcKeys (mapping : List (String × String)) : List String := mapping.map (fun p => p.1)

/-- The target keys of a mapping table. -/
def tgtKeys (mapping : List (String × String)) : List String := mapping.map (fun p => p.2)

/-- No target key of the table is also a source key.  Every table in
    `standardize_language_properties.py` satisfies this. -/
abbrev disjTable (mapping : List (String × String)) : Prop :=
  ∀ p ∈ mapping, ∀ q ∈ mapping, p.2 ≠ q.1

/-- The pattern-level mapping table of `standardize_patterns`. -/
def patternMapping : List (String × String) :=
  [("name", "english"), ("pronunciation", "romanised")]

/-- The move-level mapping table of `standardize_patterns`. -/
def moveMapping : List (String × String) :=
  [("technique", "english"), ("korean_technique", "romanised")]

/-- One move node of `standardize_patterns`: `_rename_keys` on a mapping
    node.  Python raises on non-dict members of a `moves` array; such
    ill-typed documents are outside the functional model and are mapped to
    themselves here. -/
def stdMoveNode : JVal → JVal
  | .obj fs => .obj (renameKeys moveMapping fs)
  | v => v

/-- Update the value stored at key `k` in place (identity when absent),
    keeping sibling order: Python mutates `pattern['moves']` through the
    existing dict slot. -/
def updSlot (k : String) (f : JVal → JVal) (fields : List (String × JVal)) :
    List (String × JVal) :=
  fields.map (fun p => if p.1 = k then (p.1, f p.2) else p)

/-- One pattern node of `standardize_patterns`: `_rename_keys` with the
    pattern table, then each element of a `moves` array through the move
    table.  A missing or non-array `moves` slot is left alone (Python
    iterates arrays; its behavior on other types is out of model).  The
    pattern table touches neither `moves` nor `patterns`, so renaming first
    and reading `moves` afterwards matches the Python control flow. -/
def stdPatternNode : JVal → JVal
  | .obj fs =>
    match dictGet "moves" (renameKeys patternMapping fs) with
    | some (.arr xs) =>
      .obj (updSlot "moves" (fun _ => .arr (xs.map stdMoveNode))
        (renameKeys patternMapping fs))
    | _ => .obj (renameKeys patternMapping fs)
  | v => v

/-- `LanguagePropertyStandardizer.standardize_patterns`: every element of
    the top-level `patterns` array is migrated; a document without a
    `patterns` array is returned untouched. -/
def standardize_patterns : JVal → JVal
  | .obj fs =>
    match dictGet "patterns" fs with
    | some (.arr xs) => .obj (updSlot "patterns" (fun _ => .arr (xs.map stdPatternNode)) fs)
    | _ => .obj fs
  | v => v

/-! ### Dictionary lemmas -/

theorem dictGet_cons (k : String) (p : String × JVal) (fs : List (String × JVal)) :
    dictGet k (p :: fs) = if p.1 = k then some p.2 else dictGet k fs := by
  rcases eq_or_ne p.1 k with h | h
  · simp [dictGet, List.find?, h]
  · have hb : (p.1 == k) = false := by simpa using h
    simp [dictGet, List.find?, hb, h]

theorem dictGet_dictDel (k k' : String) (fs : List (String × JVal)) :
    dictGet k (dictDel k' fs) = if k = k' then none else dictGet k fs := by
  induction fs with
  | nil => rcases eq_or_ne k k' with h | h <;> simp [dictDel, dictGet, h]
  | cons p fs ih =>
    rw [show dictDel k' (p :: fs)
          = if p.1 = k' then dictDel k' fs else p :: dictDel k' fs by
        rcases eq_or_ne p.1 k' with hp | hp <;> simp [dictDel, List.filter_cons, hp]]
    rcases eq_or_ne p.1 k' with hp | hp
    · rw [if_pos hp, ih, dictGet_cons]
      rcases eq_or_ne k k' with h | h
      · simp [h]
      · have hpk : p.1 ≠ k := fun hc => h ((hc.symm.trans hp))
        simp [h, hpk]
    · rw [if_neg hp, dictGet_cons, dictGet_cons, ih]
      rcases eq_or_ne p.1 k with hk | hk
      · have h : k ≠ k' := fun hc => hp (hk.trans hc)
        simp [hk, h]
      · simp [hk]

theorem dictGet_append (k : String) (fs gs : List (String × JVal)) :
    dictGet k (fs ++ gs)
      = if (dictGet k fs).isSome then dictGet k fs else dictGet k gs := by
  induction fs with
  | nil => simp [dictGet]
  | cons p fs ih =>
    rw [List.cons_append, dictGet_cons, dictGet_cons]
    rcases eq_or_ne p.1 k with hk | hk
    · simp [hk]
    · simp [hk, ih]

theorem dictGet_setMap (k k' : String) (v : JVal) (fs : List (String × JVal)) :
    dictGet k (fs.map (fun p => if p.1 = k' then (k', v) else p))
      = if k = k' then (dictGet k' fs).map (fun _ => v) else dictGet k fs := by
  induction fs with
  | nil => rcases eq_or_ne k k' with h | h <;> simp [dictGet, h]
  | cons p fs ih =>
    rw [List.map_cons]
    rcases eq_or_ne p.1 k' with hp | hp <;> rcases eq_or_ne p.1 k with hk | hk <;>
        rcases eq_or_ne k k' with h | h
    · simp [dictGet_cons, hp, hk, h]
    · exact absurd (hk.symm.trans hp) h
    · exact absurd (hp.trans h.symm) hk
    · simp [dictGet_cons, hp, hk, h, Ne.symm h, ih]
    · exact absurd (hk.trans h) hp
    · simp [dictGet_cons, hp, hk, h]
    · subst h
      simp [dictGet_cons, hp, hk, ih]
    · simp [dictGet_cons, hp, hk, h, ih]

theorem dictGet_dictSet (k k' : String) (v : JVal) (fs : List (String × JVal)) :
    dictGet k (dictSet k' v fs) = if k = k' then some v else dictGet k fs := by
  unfold dictSet
  by_cases hpres : (dictGet k' fs).isSome
  · rw [if_pos hpres, dictGet_setMap]
    rcases eq_or_ne k k' with h | h
    · rcases Option.isSome_iff_exists.mp hpres with ⟨w, hw⟩
      simp [h, hw]
    · simp [h]
  · rw [if_neg hpres, dictGet_append]
    by_cases hs : (dictGet k fs).isSome
    · rcases eq_or_ne k k' with h | h
      · subst h
        exact absurd hs hpres
      · simp [hs, h]
    · have hsn : dictGet k fs = none := Option.not_isSome_iff_eq_none.mp hs
      simp only [hsn, Option.isSome_none, Bool.false_eq_true, if_false]
      rcases eq_or_ne k k' with h | h
      · subst h
        simp [dictGet, List.find?]
      · have hb : (k' == k) = false := by simpa using Ne.symm h
        simp [dictGet, List.find?, hb, h]

/-! ### Migrator lemmas -/

theorem phase1_cons_none {old : String} {fs : List (String × JVal)}
    (new : String) (m : List (String × String)) (hg : dictGet old fs = none) :
    phase1 ((old, new) :: m) fs = phase1 m fs := by
  simp [phase1, hg]

theorem phase1_cons_truthy {old : String} {v : JVal} {fs : List (String × JVal)}
    (new : String) (m : List (String × String))
    (hg : dictGet old fs = some v) (ht : truthy v) :
    phase1 ((old, new) :: m) fs
      = ((old, new, v) :: (phase1 m fs).1, (phase1 m fs).2) := by
  rcases hp : phase1 m fs with ⟨c, o⟩
  simp [phase1, hg, ht, hp]

theorem phase1_cons_falsy {old : String} {v : JVal} {fs : List (String × JVal)}
    (new : String) (m : List (String × String))
    (hg : dictGet old fs = some v) (ht : ¬ truthy v) :
    phase1 ((old, new) :: m) fs = phase1 m (dictDel old fs) := by
  rcases hp : phase1 m (dictDel old fs) with ⟨c, o⟩
  simp [phase1, hg, ht, hp]

/-- `phase1` never touches a key that is not a source key of the table. -/
theorem phase1_get_of_not_src {m : List (String × String)} {k : String}
    (fs : List (String × JVal)) (hk : k ∉ srcKeys m) :
    dictGet k (phase1 m fs).2 = dictGet k fs := by
  induction m generalizing fs with
  | nil => rfl
  | cons q m ih =>
    obtain ⟨old, new⟩ := q
    have hk1 : k ∉ srcKeys m := by
      intro h
      exact hk (by simp [srcKeys] at h ⊢; exact Or.inr h)
    have hko : old ≠ k := by
      intro h
      exact hk (by simp [srcKeys, h])
    cases hg : dictGet old fs with
    | none => rw [phase1_cons_none new m hg]; exact ih fs hk1
    | some v =>
      by_cases ht : truthy v
      · rw [phase1_cons_truthy new m hg ht]; exact ih fs hk1
      · rw [phase1_cons_falsy new m hg ht, ih _ hk1, dictGet_dictDel,
          if_neg (fun h : k = old => hko h.symm)]

/-- Every triple collected by `phase1` comes from the table, holds a truthy
    value and reads that value off the original node. -/
theorem phase1_collected {m : List (String × String)} {fs : List (String × JVal)}
    {e : String × String × JVal} (he : e ∈ (phase1 m fs).1) :
    (e.1, e.2.1) ∈ m ∧ truthy e.2.2 ∧ dictGet e.1 fs = some e.2.2 := by
  induction m generalizing fs with
  | nil => simp [phase1] at he
  | cons q m ih =>
    obtain ⟨old, new⟩ := q
    cases hg : dictGet old fs with
    | none =>
      rw [phase1_cons_none new m hg] at he
      have := ih he
      exact ⟨List.mem_cons_of_mem _ this.1, this.2⟩
    | some v =>
      by_cases ht : truthy v
      · rw [phase1_cons_truthy new m hg ht] at he
        rcases List.mem_cons.mp he with h | h
        · subst h
          exact ⟨List.mem_cons_self _ _, ht, hg⟩
        · have := ih h
          exact ⟨List.mem_cons_of_mem _ this.1, this.2⟩
      · rw [phase1_cons_falsy new m hg ht] at he
        have := ih he
        refine ⟨List.mem_cons_of_mem _ this.1, this.2.1, ?_⟩
        have h3 := this.2.2
        rw [dictGet_dictDel] at h3
        by_cases h : e.1 = old
        · rw [if_pos h] at h3; cases h3
        · rwa [if_neg h] at h3

/-- `phase1` never introduces a key. -/
theorem phase1_get_none {m : List (String × String)} {k : String}
    (fs : List (String × JVal)) (hk : dictGet k fs = none) :
    dictGet k (phase1 m fs).2 = none := by
  induction m generalizing fs with
  | nil => exact hk
  | cons q m ih =>
    obtain ⟨old, new⟩ := q
    cases hg : dictGet old fs with
    | none => rw [phase1_cons_none new m hg]; exact ih fs hk
    | some v =>
      by_cases ht : truthy v
      · rw [phase1_cons_truthy new m hg ht]; exact ih fs hk
      · rw [phase1_cons_falsy new m hg ht]
        refine ih _ ?_
        rw [dictGet_dictDel]
        by_cases h : k = old <;> simp [h, hk]

/-- After `phase1`, every source key of the table is collected (with its
    table target) or absent. -/
theorem phase1_src_dealt {m : List (String × String)} {s t : String}
    (fs : List (String × JVal)) (hm : (s, t) ∈ m) :
    (∃ v, (s, t, v) ∈ (phase1 m fs).1) ∨ dictGet s (phase1 m fs).2 = none := by
  induction m generalizing fs with
  | nil => cases hm
  | cons q m ih =>
    obtain ⟨old, new⟩ := q
    cases hg : dictGet old fs with
    | none =>
      rw [phase1_cons_none new m hg]
      rcases List.mem_cons.mp hm with h | h
      · right
        cases h
        exact phase1_get_none fs hg
      · exact ih fs h
    | some v =>
      by_cases ht : truthy v
      · rw [phase1_cons_truthy new m hg ht]
        rcases List.mem_cons.mp hm with h | h
        · left
          cases h
          exact ⟨v, List.mem_cons_self _ _⟩
        · rcases ih fs h with ⟨w, hw⟩ | hnone
          · exact Or.inl ⟨w, List.mem_cons_of_mem _ hw⟩
          · exact Or.inr hnone
      · rw [phase1_cons_falsy new m hg ht]
        rcases List.mem_cons.mp hm with h | h
        · right
          cases h
          refine phase1_get_none _ ?_
          rw [dictGet_dictDel, if_pos rfl]
        · exact ih _ h

/-- A table none of whose source keys is present collects nothing and
    deletes nothing. -/
theorem phase1_no_src {m : List (String × String)} {fs : List (String × JVal)}
    (h : ∀ p ∈ m, dictGet p.1 fs = none) : phase1 m fs = ([], fs) := by
  induction m with
  | nil => rfl
  | cons q m ih =>
    obtain ⟨old, new⟩ := q
    rw [phase1_cons_none new m (h (old, new) (List.mem_cons_self _ _))]
    exact ih (fun p hp => h p (List.mem_cons_of_mem _ hp))

/-- A present, truthy source key is collected together with its table
    target and its value. -/
theorem phase1_collect_mem {m : List (String × String)} {s t : String}
    {v : JVal} (fs : List (String × JVal)) (hm : (s, t) ∈ m)
    (hg : dictGet s fs = some v) (ht : truthy v) :
    (s, t, v) ∈ (phase1 m fs).1 := by
  induction m generalizing fs with
  | nil => cases hm
  | cons q m ih =>
    obtain ⟨old, new⟩ := q
    cases hg2 : dictGet old fs with
    | none =>
      rw [phase1_cons_none new m hg2]
      rcases List.mem_cons.mp hm with h | h
      · cases h
        rw [hg] at hg2
        cases hg2
      · exact ih fs h hg
    | some w =>
      by_cases htw : truthy w
      · rw [phase1_cons_truthy new m hg2 htw]
        rcases List.mem_cons.mp hm with h | h
        · cases h
          rw [hg] at hg2
          cases hg2
          exact List.mem_cons_self _ _
        · exact List.mem_cons_of_mem _ (ih fs h hg)
      · rw [phase1_cons_falsy new m hg2 htw]
        rcases List.mem_cons.mp hm with h | h
        · cases h
          rw [hg] at hg2
          cases hg2
          exact absurd ht htw
        · refine ih _ h ?_
          rw [dictGet_dictDel]
          have hso : s ≠ old := by
            intro he
            subst he
            rw [hg] at hg2
            cases hg2
            exact htw ht
          simp [hso, hg]

/-- The old keys of a collected triple list. -/
def olds (c : List (String × String × JVal)) : List String := c.map (fun e => e.1)

/-- The new keys of a collected triple list. -/
def news (c : List (String × String × JVal)) : List String := c.map (fun e => e.2.1)

/-- `phase2` leaves a key alone when it is neither an old nor a new key of
    any collected triple. -/
theorem phase2_get_untouched {c : List (String × String × JVal)} {k : String}
    (fs : List (String × JVal)) (ho : k ∉ olds c) (hn : k ∉ news c) :
    dictGet k (phase2 c fs) = dictGet k fs := by
  induction c generalizing fs with
  | nil => rfl
  | cons e c ih =>
    obtain ⟨o, n, v⟩ := e
    have hko : k ≠ o := fun h => ho (by simp [olds, h])
    have hkn : k ≠ n := fun h => hn (by simp [news, h])
    have ho1 : k ∉ olds c := fun h => ho (by simp [olds] at h ⊢; exact Or.inr h)
    have hn1 : k ∉ news c := fun h => hn (by simp [news] at h ⊢; exact Or.inr h)
    by_cases hne : o ≠ n
    · rw [show phase2 ((o, n, v) :: c) fs = phase2 c (dictDel o (dictSet n v fs))
          from by simp [phase2, hne]]
      rw [ih _ ho1 hn1, dictGet_dictDel, if_neg hko, dictGet_dictSet, if_neg hkn]
    · rw [show phase2 ((o, n, v) :: c) fs = phase2 c fs from by simp [phase2, hne]]
      exact ih _ ho1 hn1

/-- `phase2` never introduces a key that is not a new key. -/
theorem phase2_get_none {c : List (String × String × JVal)} {k : String}
    (fs : List (String × JVal)) (hk : dictGet k fs = none) (hn : k ∉ news c) :
    dictGet k (phase2 c fs) = none := by
  induction c generalizing fs with
  | nil => exact hk
  | cons e c ih =>
    obtain ⟨o, n, v⟩ := e
    have hkn : k ≠ n := fun h => hn (by simp [news, h])
    have hn1 : k ∉ news c := fun h => hn (by simp [news] at h ⊢; exact Or.inr h)
    by_cases hne : o ≠ n
    · rw [show phase2 ((o, n, v) :: c) fs = phase2 c (dictDel o (dictSet n v fs))
          from by simp [phase2, hne]]
      refine ih _ ?_ hn1
      rw [dictGet_dictDel]
      by_cases h : k = o
      · simp [h]
      · rw [if_neg h, dictGet_dictSet, if_neg hkn]
        exact hk
    · rw [show phase2 ((o, n, v) :: c) fs = phase2 c fs from by simp [phase2, hne]]
      exact ih _ hk hn1

/-- `phase2` removes every old key that is not also some new key. -/
theorem phase2_old_gone {c : List (String × String × JVal)} {k : String}
    (fs : List (String × JVal)) (hd : ∀ e ∈ c, e.1 ≠ e.2.1)
    (ho : k ∈ olds c) (hn : k ∉ news c) :
    dictGet k (phase2 c fs) = none := by
  induction c generalizing fs with
  | nil => simp [olds] at ho
  | cons e c ih =>
    obtain ⟨o, n, v⟩ := e
    have hkn : k ≠ n := fun h => hn (by simp [news, h])
    have hn1 : k ∉ news c := fun h => hn (by simp [news] at h ⊢; exact Or.inr h)
    have hne : o ≠ n := hd (o, n, v) (List.mem_cons_self _ _)
    rw [show phase2 ((o, n, v) :: c) fs = phase2 c (dictDel o (dictSet n v fs))
        from by simp [phase2, hne]]
    by_cases hko : k = o
    · refine phase2_get_none _ ?_ hn1
      rw [dictGet_dictDel, if_pos hko]
    · have ho1 : k ∈ olds c := by
        simp [olds] at ho
        rcases ho with h | h
        · exact absurd h hko
        · simpa [olds] using h
      exact ih _ (fun e he => hd e (List.mem_cons_of_mem _ he)) ho1 hn1

/-- If every triple writing to `t` writes the value `v`, `t` is no old key,
    and either some triple writes `(t, v)` or `t` already holds `v`, then
    after `phase2` the key `t` holds `v` (the last write wins and every
    write agrees). -/
theorem phase2_target_val {c : List (String × String × JVal)} {t : String}
    {v : JVal} (fs : List (String × JVal))
    (hall : ∀ e ∈ c, e.2.1 = t → e.2.2 = v) (ho : t ∉ olds c)
    (hst : (∃ o, (o, t, v) ∈ c) ∨ dictGet t fs = some v) :
    dictGet t (phase2 c fs) = some v := by
  induction c generalizing fs with
  | nil =>
    rcases hst with ⟨o, h⟩ | h
    · cases h
    · exact h
  | cons e c ih =>
    obtain ⟨o1, n1, v1⟩ := e
    have hto : t ≠ o1 := fun h => ho (by simp [olds, h])
    have ho1 : t ∉ olds c := fun h => ho (by simp [olds] at h ⊢; exact Or.inr h)
    have hall1 : ∀ e ∈ c, e.2.1 = t → e.2.2 = v :=
      fun e he => hall e (List.mem_cons_of_mem _ he)
    by_cases hne : o1 ≠ n1
    · rw [show phase2 ((o1, n1, v1) :: c) fs = phase2 c (dictDel o1 (dictSet n1 v1 fs))
          from by simp [phase2, hne]]
      by_cases hn1t : n1 = t
      · have hv1 : v1 = v := hall (o1, n1, v1) (List.mem_cons_self _ _) hn1t
        refine ih _ hall1 ho1 (Or.inr ?_)
        rw [dictGet_dictDel, if_neg hto, dictGet_dictSet, if_pos hn1t.symm, hv1]
      · refine ih _ hall1 ho1 ?_
        rcases hst with ⟨o, h⟩ | h
        · rcases List.mem_cons.mp h with h | h
          · cases h
            exact absurd rfl hn1t
          · exact Or.inl ⟨o, h⟩
        · refine Or.inr ?_
          rw [dictGet_dictDel, if_neg hto, dictGet_dictSet,
            if_neg (fun hc : t = n1 => hn1t hc.symm)]
          exact h
    · rw [show phase2 ((o1, n1, v1) :: c) fs = phase2 c fs from by simp [phase2, hne]]
      refine ih _ hall1 ho1 ?_
      rcases hst with ⟨o, h⟩ | h
      · rcases List.mem_cons.mp h with h | h
        · cases h
          exact absurd (not_not.mp hne).symm hto
        · exact Or.inl ⟨o, h⟩
      · exact Or.inr h

/-- After `phase2`, a key that is no old key either kept its value or holds
    the value of one of the triples that write to it. -/
theorem phase2_target_all {c : List (String × String × JVal)} {t : String}
    (fs : List (String × JVal)) (ho : t ∉ olds c) :
    dictGet t (phase2 c fs) = dictGet t fs ∨
      ∃ e ∈ c, e.2.1 = t ∧ dictGet t (phase2 c fs) = some e.2.2 := by
  induction c generalizing fs with
  | nil => exact Or.inl rfl
  | cons e c ih =>
    obtain ⟨o1, n1, v1⟩ := e
    have hto : t ≠ o1 := fun h => ho (by simp [olds, h])
    have ho1 : t ∉ olds c := fun h => ho (by simp [olds] at h ⊢; exact Or.inr h)
    by_cases hne : o1 ≠ n1
    · rw [show phase2 ((o1, n1, v1) :: c) fs = phase2 c (dictDel o1 (dictSet n1 v1 fs))
          from by simp [phase2, hne]]
      have hget : dictGet t (dictDel o1 (dictSet n1 v1 fs))
          = if t = n1 then some v1 else dictGet t fs := by
        rw [dictGet_dictDel, if_neg hto, dictGet_dictSet]
      rcases ih (dictDel o1 (dictSet n1 v1 fs)) ho1 with h | ⟨e, he, het, hev⟩
      · by_cases hn1t : t = n1
        · refine Or.inr ⟨(o1, n1, v1), List.mem_cons_self _ _, hn1t.symm, ?_⟩
          rw [h, hget, if_pos hn1t]
        · rw [h, hget, if_neg hn1t]
          exact Or.inl rfl
      · exact Or.inr ⟨e, List.mem_cons_of_mem _ he, het, hev⟩
    · rw [show phase2 ((o1, n1, v1) :: c) fs = phase2 c fs from by simp [phase2, hne]]
      rcases ih fs ho1 with h | ⟨e, he, het, hev⟩
      · exact Or.inl h
      · exact Or.inr ⟨e, List.mem_cons_of_mem _ he, het, hev⟩

theorem renameKeys_eq (m : List (String × String)) (fs : List (String × JVal)) :
    renameKeys m fs = phase2 (phase1 m fs).1 (phase1 m fs).2 := by
  rcases hp : phase1 m fs with ⟨c, o⟩
  simp [renameKeys, hp]

theorem mem_srcKeys {m : List (String × String)} {s t : String}
    (h : (s, t) ∈ m) : s ∈ srcKeys m :=
  List.mem_map.mpr ⟨(s, t), h, rfl⟩

theorem mem_tgtKeys {m : List (String × String)} {s t : String}
    (h : (s, t) ∈ m) : t ∈ tgtKeys m :=
  List.mem_map.mpr ⟨(s, t), h, rfl⟩

theorem disj_src_not_tgt {m : List (String × String)} {s : String}
    (hd : disjTable m) (hs : s ∈ srcKeys m) : s ∉ tgtKeys m := by
  intro ht
  rcases List.mem_map.mp hs with ⟨q, hq, hq1⟩
  rcases List.mem_map.mp ht with ⟨p, hp, hp2⟩
  exact hd p hp q hq (hp2.trans hq1.symm)

theorem disj_tgt_not_src {m : List (String × String)} {t : String}
    (hd : disjTable m) (ht : t ∈ tgtKeys m) : t ∉ srcKeys m := by
  intro hs
  exact disj_src_not_tgt hd hs ht

theorem collected_olds_src {m : List (String × String)} {fs : List (String × JVal)}
    {k : String} (h : k ∈ olds (phase1 m fs).1) : k ∈ srcKeys m := by
  rcases List.mem_map.mp h with ⟨e, he, hek⟩
  exact hek ▸ mem_srcKeys (phase1_collected he).1

theorem collected_news_tgt {m : List (String × String)} {fs : List (String × JVal)}
    {k : String} (h : k ∈ news (phase1 m fs).1) : k ∈ tgtKeys m := by
  rcases List.mem_map.mp h with ⟨e, he, hek⟩
  exact hek ▸ mem_tgtKeys (phase1_collected he).1

theorem collected_proper {m : List (String × String)} {fs : List (String × JVal)}
    (hd : disjTable m) : ∀ e ∈ (phase1 m fs).1, e.1 ≠ e.2.1 := by
  intro e he hee
  have hm := (phase1_collected he).1
  exact hd (e.1, e.2.1) hm (e.1, e.2.1) hm (by simpa using hee.symm)

/-- The migrator frame property: a key of the node that the table names
    neither as a source nor as a target keeps its value (hence its whole
    subtree, nesting and array order) unchanged — for every table. -/
theorem renameKeys_get_unmapped {m : List (String × String)} {k : String}
    (fs : List (String × JVal)) (hs : k ∉ srcKeys m) (ht : k ∉ tgtKeys m) :
    dictGet k (renameKeys m fs) = dictGet k fs := by
  rw [renameKeys_eq]
  rw [phase2_get_untouched _ (fun h => hs (collected_olds_src h))
    (fun h => ht (collected_news_tgt h))]
  exact phase1_get_of_not_src _ hs

/-- After migration with a table whose targets are no sources, every source
    key of the table is absent. -/
theorem renameKeys_src_none {m : List (String × String)} {s t : String}
    (fs : List (String × JVal)) (hd : disjTable m) (hm : (s, t) ∈ m) :
    dictGet s (renameKeys m fs) = none := by
  rw [renameKeys_eq]
  have hsn : s ∉ news (phase1 m fs).1 := fun h =>
    disj_tgt_not_src hd (collected_news_tgt h) (mem_srcKeys hm)
  rcases phase1_src_dealt fs hm with ⟨v, hv⟩ | hnone
  · exact phase2_old_gone _ (collected_proper hd)
      (List.mem_map.mpr ⟨(s, t, v), hv, rfl⟩) hsn
  · exact phase2_get_none _ hnone hsn

/-- `_rename_keys` is idempotent for every table whose target keys are not
    themselves source keys (all tables of
    `standardize_language_properties.py` qualify): after the first run no
    source key is left, so the second run collects and deletes nothing. -/
theorem renameKeys_idem {m : List (String × String)}
    (fs : List (String × JVal)) (hd : disjTable m) :
    renameKeys m (renameKeys m fs) = renameKeys m fs := by
  have hall : ∀ p ∈ m, dictGet p.1 (renameKeys m fs) = none := by
    intro p hp
    exact renameKeys_src_none fs hd (show (p.1, p.2) ∈ m by simpa using hp)
  rw [renameKeys_eq m (renameKeys m fs), phase1_no_src hall]
  rfl

/-- A target key whose stored value the migration changed holds a truthy
    value afterwards: the migrator never writes an empty value. -/
theorem renameKeys_tgt_truthy {m : List (String × String)} {t : String}
    (fs : List (String × JVal)) (hd : disjTable m) (ht : t ∈ tgtKeys m)
    (hne : dictGet t (renameKeys m fs) ≠ dictGet t fs) :
    ∃ v, dictGet t (renameKeys m fs) = some v ∧ truthy v := by
  rw [renameKeys_eq] at hne ⊢
  have hts : t ∉ srcKeys m := disj_tgt_not_src hd ht
  have hto : t ∉ olds (phase1 m fs).1 := fun h => hts (collected_olds_src h)
  rcases phase2_target_all (phase1 m fs).2 hto with h | ⟨e, he, het, hev⟩
  · exact absurd (h.trans (phase1_get_of_not_src fs hts)) hne
  · exact ⟨e.2.2, hev, (phase1_collected he).2.1⟩

/-- When a mapping's truthy source is present and no other mapping of the
    table shares its target, migration stores the source's value at the
    target (discarding whatever the target held) and removes the source. -/
theorem renameKeys_overwrite {m : List (String × String)} {s t : String}
    {v : JVal} (fs : List (String × JVal)) (hd : disjTable m) (hm : (s, t) ∈ m)
    (huniq : ∀ p ∈ m, p.2 = t → p.1 = s)
    (hg : dictGet s fs = some v) (ht : truthy v) :
    dictGet t (renameKeys m fs) = some v ∧ dictGet s (renameKeys m fs) = none := by
  refine ⟨?_, renameKeys_src_none fs hd hm⟩
  rw [renameKeys_eq]
  have hts : t ∉ srcKeys m := disj_tgt_not_src hd (mem_tgtKeys hm)
  have hto : t ∉ olds (phase1 m fs).1 := fun h => hts (collected_olds_src h)
  refine phase2_target_val (phase1 m fs).2 ?_ hto
    (Or.inl ⟨s, phase1_collect_mem fs hm hg ht⟩)
  intro e he het
  have hc := phase1_collected he
  have hes : e.1 = s := huniq (e.1, e.2.1) hc.1 het
  have := hc.2.2
  rw [hes, hg] at this
  exact (Option.some_injective _ this).symm

/-- `_rename_keys` does nothing at all when no source key is present. -/
theorem renameKeys_noop {m : List (String × String)} {fs : List (String × JVal)}
    (h : ∀ p ∈ m, dictGet p.1 fs = none) : renameKeys m fs = fs := by
  rw [renameKeys_eq, phase1_no_src h]
  rfl

/-- The entries of a node whose keys the table mentions neither as sources
    nor as targets, in their original order. -/
def unmappedPart (m : List (String × String)) (fs : List (String × JVal)) :
    List (String × JVal) :=
  fs.filter (fun p => decide (p.1 ∉ srcKeys m) && decide (p.1 ∉ tgtKeys m))

theorem unmappedPart_cons (m : List (String × String)) (p : String × JVal)
    (fs : List (String × JVal)) :
    unmappedPart m (p :: fs)
      = if decide (p.1 ∉ srcKeys m) && decide (p.1 ∉ tgtKeys m)
        then p :: unmappedPart m fs else unmappedPart m fs := by
  unfold unmappedPart
  rw [List.filter_cons]

theorem unmappedPart_cons_mapped {m : List (String × String)}
    {p : String × JVal} (fs : List (String × JVal))
    (hp : p.1 ∈ srcKeys m ∨ p.1 ∈ tgtKeys m) :
    unmappedPart m (p :: fs) = unmappedPart m fs := by
  rw [unmappedPart_cons]
  rcases hp with h | h <;> simp [h]

theorem unmappedPart_dictDel {m : List (String × String)} {k : String}
    (fs : List (String × JVal)) (hk : k ∈ srcKeys m ∨ k ∈ tgtKeys m) :
    unmappedPart m (dictDel k fs) = unmappedPart m fs := by
  induction fs with
  | nil => rfl
  | cons p fs ih =>
    by_cases hp : p.1 = k
    · rw [show dictDel k (p :: fs) = dictDel k fs from by
        simp [dictDel, List.filter_cons, hp]]
      rw [ih, unmappedPart_cons_mapped fs (hp ▸ hk)]
    · rw [show dictDel k (p :: fs) = p :: dictDel k fs from by
        simp [dictDel, List.filter_cons, hp]]
      rw [unmappedPart_cons, unmappedPart_cons, ih]

theorem unmappedPart_dictSet {m : List (String × String)} {k : String}
    {v : JVal} (fs : List (String × JVal)) (hk : k ∈ srcKeys m ∨ k ∈ tgtKeys m) :
    unmappedPart m (dictSet k v fs) = unmappedPart m fs := by
  unfold dictSet
  by_cases hpres : (dictGet k fs).isSome
  · rw [if_pos hpres]
    clear hpres
    induction fs with
    | nil => rfl
    | cons p fs ih =>
      rw [List.map_cons]
      by_cases hp : p.1 = k
      · rw [if_pos hp, unmappedPart_cons_mapped _ hk,
          unmappedPart_cons_mapped fs (hp ▸ hk)]
        exact ih
      · rw [if_neg hp]
        rw [unmappedPart_cons, unmappedPart_cons, ih]
  · rw [if_neg hpres]
    have h1 : unmappedPart m [(k, v)] = [] := by
      rcases hk with h | h <;> simp [unmappedPart, List.filter_cons, h]
    show List.filter _ (fs ++ [(k, v)]) = _
    rw [List.filter_append]
    show unmappedPart m fs ++ unmappedPart m [(k, v)] = unmappedPart m fs
    rw [h1, List.append_nil]

theorem phase1_unmappedPart {m m' : List (String × String)}
    (fs : List (String × JVal)) (hsub : ∀ p ∈ m', p.1 ∈ srcKeys m) :
    unmappedPart m (phase1 m' fs).2 = unmappedPart m fs := by
  induction m' generalizing fs with
  | nil => rfl
  | cons q m' ih =>
    obtain ⟨old, new⟩ := q
    have hsub1 : ∀ p ∈ m', p.1 ∈ srcKeys m :=
      fun p hp => hsub p (List.mem_cons_of_mem _ hp)
    cases hg : dictGet old fs with
    | none => rw [phase1_cons_none new m' hg]; exact ih fs hsub1
    | some v =>
      by_cases ht : truthy v
      · rw [phase1_cons_truthy new m' hg ht]; exact ih fs hsub1
      · rw [phase1_cons_falsy new m' hg ht, ih _ hsub1,
          unmappedPart_dictDel fs (Or.inl (hsub (old, new) (List.mem_cons_self _ _)))]

theorem phase2_unmappedPart {m : List (String × String)}
    {c : List (String × String × JVal)} (fs : List (String × JVal))
    (hc : ∀ e ∈ c, e.1 ∈ srcKeys m ∧ e.2.1 ∈ tgtKeys m) :
    unmappedPart m (phase2 c fs) = unmappedPart m fs := by
  induction c generalizing fs with
  | nil => rfl
  | cons e c ih =>
    obtain ⟨o, n, v⟩ := e
    have hc1 : ∀ e ∈ c, e.1 ∈ srcKeys m ∧ e.2.1 ∈ tgtKeys m :=
      fun e he => hc e (List.mem_cons_of_mem _ he)
    have hhead := hc (o, n, v) (List.mem_cons_self _ _)
    by_cases hne : o ≠ n
    · rw [show phase2 ((o, n, v) :: c) fs = phase2 c (dictDel o (dictSet n v fs))
          from by simp [phase2, hne]]
      rw [ih _ hc1, unmappedPart_dictDel _ (Or.inl hhead.1),
        unmappedPart_dictSet fs (Or.inr hhead.2)]
    · rw [show phase2 ((o, n, v) :: c) fs = phase2 c fs from by simp [phase2, hne]]
      exact ih fs hc1

/-- The sibling-order frame property: the sub-list of entries with unmapped
    keys is exactly preserved (same entries, same order, same values) by
    `_rename_keys`, for every table. -/
theorem renameKeys_unmappedPart (m : List (String × String))
    (fs : List (String × JVal)) :
    unmappedPart m (renameKeys m fs) = unmappedPart m fs := by
  rw [renameKeys_eq]
  rw [phase2_unmappedPart _ (fun e he =>
    ⟨mem_srcKeys (phase1_collected he).1, mem_tgtKeys (phase1_collected he).1⟩)]
  exact phase1_unmappedPart fs (fun p hp => List.mem_map.mpr ⟨p, hp, rfl⟩)

/-! ### The `standardize_patterns` walker -/

theorem dictGet_updSlot (k j : String) (f : JVal → JVal)
    (fs : List (String × JVal)) :
    dictGet k (updSlot j f fs)
      = if k = j then (dictGet j fs).map f else dictGet k fs := by
  induction fs with
  | nil => rcases eq_or_ne k j with h | h <;> simp [updSlot, dictGet, h]
  | cons p fs ih =>
    rw [show updSlot j f (p :: fs)
          = (if p.1 = j then (p.1, f p.2) else p) :: updSlot j f fs from rfl]
    rcases eq_or_ne p.1 j with hp | hp <;> rcases eq_or_ne p.1 k with hk | hk <;>
        rcases eq_or_ne k j with h | h
    · simp [dictGet_cons, hp, hk, h]
    · exact absurd (hk.symm.trans hp) h
    · exact absurd (hp.trans h.symm) hk
    · simp [dictGet_cons, hp, hk, h, Ne.symm h, ih]
    · exact absurd (hk.trans h) hp
    · simp [dictGet_cons, hp, hk, h]
    · subst h
      simp [dictGet_cons, hp, hk, ih]
    · simp [dictGet_cons, hp, hk, h, ih]

theorem updSlot_updSlot (j : String) (f g : JVal → JVal)
    (fs : List (String × JVal)) :
    updSlot j f (updSlot j g fs) = updSlot j (fun v => f (g v)) fs := by
  induction fs with
  | nil => rfl
  | cons p fs ih =>
    rcases eq_or_ne p.1 j with hp | hp <;> simp [updSlot, hp] at ih ⊢ <;> exact ih

theorem stdMoveNode_idem (v : JVal) : stdMoveNode (stdMoveNode v) = stdMoveNode v := by
  cases v with
  | obj fs => exact congrArg JVal.obj (renameKeys_idem _ (by decide))
  | str s => rfl
  | num n => rfl
  | bool b => rfl
  | null => rfl
  | arr xs => rfl

theorem stdPatternNode_obj (fs : List (String × JVal)) :
    stdPatternNode (.obj fs)
      = match dictGet "moves" (renameKeys patternMapping fs) with
        | some (.arr xs) =>
          .obj (updSlot "moves" (fun _ => .arr (xs.map stdMoveNode))
            (renameKeys patternMapping fs))
        | _ => .obj (renameKeys patternMapping fs) := rfl

theorem stdPatternNode_idem (v : JVal) :
    stdPatternNode (stdPatternNode v) = stdPatternNode v := by
  cases v with
  | obj fs =>
    have hdisj : disjTable patternMapping := by decide
    have hnone : ∀ p ∈ patternMapping,
        dictGet p.1 (renameKeys patternMapping fs) = none := fun p hp =>
      renameKeys_src_none fs hdisj (show (p.1, p.2) ∈ patternMapping by simpa using hp)
    rw [stdPatternNode_obj fs]
    split
    · next xs hx =>
      have hnone2 : ∀ p ∈ patternMapping,
          dictGet p.1 (updSlot "moves" (fun _ => JVal.arr (xs.map stdMoveNode))
            (renameKeys patternMapping fs)) = none := by
        intro p hp
        rw [dictGet_updSlot]
        have hpm : p.1 ≠ "moves" := by
          have hp2 : p = ("name", "english") ∨ p = ("pronunciation", "romanised") := by
            simpa [patternMapping] using hp
          rcases hp2 with rfl | rfl <;> decide
        rw [if_neg hpm]
        exact hnone p hp
      rw [stdPatternNode_obj, renameKeys_noop hnone2, dictGet_updSlot, if_pos rfl, hx]
      show JVal.obj (updSlot "moves" _ _) = _
      have hmm : (xs.map stdMoveNode).map stdMoveNode = xs.map stdMoveNode := by
        rw [List.map_map]
        exact List.map_congr_left (fun x _ => stdMoveNode_idem x)
      rw [updSlot_updSlot]
      simp only [Option.map_some, hmm]
    · next hx =>
      rw [stdPatternNode_obj, renameKeys_noop hnone]
      split
      · next xs2 hx2 => exact absurd hx2 (hx _)
      · rfl
  | str s => rfl
  | num n => rfl
  | bool b => rfl
  | null => rfl
  | arr xs => rfl

theorem standardize_patterns_obj (fs : List (String × JVal)) :
    standardize_patterns (.obj fs)
      = match dictGet "patterns" fs with
        | some (.arr xs) =>
          .obj (updSlot "patterns" (fun _ => .arr (xs.map stdPatternNode)) fs)
        | _ => .obj fs := rfl

theorem standardize_patterns_idem (d : JVal) :
    standardize_patterns (standardize_patterns d) = standardize_patterns d := by
  cases d with
  | obj fs =>
    rw [standardize_patterns_obj fs]
    split
    · next xs hx =>
      rw [standardize_patterns_obj, dictGet_updSlot, if_pos rfl, hx]
      show JVal.obj (updSlot "patterns" _ _) = _
      have hmm : (xs.map stdPatternNode).map stdPatternNode = xs.map stdPatternNode := by
        rw [List.map_map]
        exact List.map_congr_left (fun x _ => stdPatternNode_idem x)
      rw [updSlot_updSlot]
      simp only [Option.map_some, hmm]
    · next hx =>
      rw [standardize_patterns_obj]
      split
      · next xs2 hx2 => exact absurd hx2 (hx _)
      · rfl
  | str s => rfl
  | num n => rfl
  | bool b => rfl
  | null => rfl
  | arr xs => rfl

/-! ### Claims C3, C8 and C9 -/

/-- C3, counterexample: the claim's consequent — "after migration no mapped
    target key exists with an empty value" — fails on a node that already
    holds the target key `t` with an empty string while the source `a` is
    absent: migration is a no-op and the empty target persists. -/
theorem claim_C3_counterexample :
    renameKeys [("a", "t")] [("t", JVal.str [])] = [("t", JVal.str [])] ∧
    dictGet "t" (renameKeys [("a", "t")] [("t", JVal.str [])])
      = some (JVal.str []) ∧
    "t" ∈ tgtKeys [("a", "t")] ∧
    truthy (JVal.str []) = false ∧
    dictGet "a" (renameKeys [("a", "t")] [("t", JVal.str [])]) = none :=
  ⟨rfl, rfl, by decide, rfl, rfl⟩

/-- C3 (amended): for every node and every table whose target keys are not
    themselves source keys, after migration every source key — in
    particular one that was present with an empty value — is absent, and
    any mapped target key whose stored value migration changed holds a
    truthy (non-empty) value; an empty value is never renamed onto a
    target.  (A target key already present with an empty value while its
    source is absent is left in place, per the counterexample.) -/
theorem claim_C3 (m : List (String × String)) (fs : List (String × JVal))
    (hd : disjTable m) :
    (∀ s t, (s, t) ∈ m → dictGet s (renameKeys m fs) = none) ∧
    (∀ t, t ∈ tgtKeys m → dictGet t (renameKeys m fs) ≠ dictGet t fs →
      ∃ v, dictGet t (renameKeys m fs) = some v ∧ truthy v) :=
  ⟨fun _ t hm => renameKeys_src_none fs hd hm,
   fun _ ht hne => renameKeys_tgt_truthy fs hd ht hne⟩

/-- C3 witness: the amended statement applied to the vocabulary table on a
    node holding an empty `romanized` field — the field is deleted, not
    renamed. -/
theorem claim_C3_witness :
    dictGet "romanized"
      (renameKeys [("romanized", "romanised")] [("romanized", JVal.str [])])
      = none :=
  (claim_C3 [("romanized", "romanised")] [("romanized", JVal.str [])]
    (by decide)).1 "romanized" "romanised" (by decide)

/-- C8: structural preservation of the migrator, for every node and table:
    a key named neither as source nor as target keeps its stored value
    (hence its whole subtree: nesting depth and array order inside it)
    unchanged; the sub-list of unmapped entries is preserved with its
    sibling order; and the `standardize_patterns` walker rewrites the
    `patterns` array element-wise (same length, same order) leaving every
    other top-level key untouched. -/
theorem claim_C8 :
    (∀ (m : List (String × String)) (fs : List (String × JVal)) (k : String),
      k ∉ srcKeys m → k ∉ tgtKeys m →
        dictGet k (renameKeys m fs) = dictGet k fs) ∧
    (∀ (m : List (String × String)) (fs : List (String × JVal)),
      unmappedPart m (renameKeys m fs) = unmappedPart m fs) ∧
    (∀ (fs : List (String × JVal)) (xs : List JVal),
      dictGet "patterns" fs = some (.arr xs) →
        standardize_patterns (.obj fs)
          = .obj (updSlot "patterns" (fun _ => .arr (xs.map stdPatternNode)) fs) ∧
        (xs.map stdPatternNode).length = xs.length ∧
        ∀ k, k ≠ "patterns" →
          dictGet k (updSlot "patterns"
            (fun _ => JVal.arr (xs.map stdPatternNode)) fs) = dictGet k fs) := by
  refine ⟨fun m fs k hs ht => renameKeys_get_unmapped fs hs ht,
    fun m fs => renameKeys_unmappedPart m fs, fun fs xs hx => ⟨?_, ?_, ?_⟩⟩
  · rw [standardize_patterns_obj, hx]
  · exact List.length_map xs stdPatternNode
  · intro k hk
    rw [dictGet_updSlot, if_neg hk]

/-- C8 witness: the frame property applied to the terminology table on a
    node with one unmapped key, and the walker applied to a one-pattern
    document. -/
theorem claim_C8_witness :
    dictGet "belt" (renameKeys [("english_term", "english")]
      [("belt", JVal.str (enc "white"))])
      = dictGet "belt" [("belt", JVal.str (enc "white"))] ∧
    standardize_patterns (.obj [("patterns", JVal.arr [JVal.null])])
      = .obj (updSlot "patterns" (fun _ => .arr ([JVal.null].map stdPatternNode))
          [("patterns", JVal.arr [JVal.null])]) :=
  ⟨claim_C8.1 [("english_term", "english")] [("belt", JVal.str (enc "white"))]
      "belt" (by decide) (by decide),
   (claim_C8.2.2 [("patterns", JVal.arr [JVal.null])] [JVal.null] rfl).1⟩

/-- C9, counterexample: the claim quantifies over every node and mapping
    with both keys present and truthy, but in the techniques table both
    `korean` and `korean_hangul` rename to `hangul`; on a node holding all
    three, the later mapping wins, so the target does not receive the
    value of the earlier mapping's source (`a`), but `c`. -/
theorem claim_C9_counterexample :
    dictGet "korean"
      [("korean", JVal.str (enc "a")), ("hangul", JVal.str (enc "b")),
        ("korean_hangul", JVal.str (enc "c"))] = some (JVal.str (enc "a")) ∧
    dictGet "hangul"
      [("korean", JVal.str (enc "a")), ("hangul", JVal.str (enc "b")),
        ("korean_hangul", JVal.str (enc "c"))] = some (JVal.str (enc "b")) ∧
    dictGet "hangul"
      (renameKeys [("korean", "hangul"), ("korean_hangul", "hangul")]
        [("korean", JVal.str (enc "a")), ("hangul", JVal.str (enc "b")),
          ("korean_hangul", JVal.str (enc "c"))]) = some (JVal.str (enc "c")) ∧
    enc "c" ≠ enc "a" :=
  ⟨rfl, rfl, rfl, by decide⟩

/-- C9 (amended): when additionally no other mapping of the table shares
    the target key, migration does overwrite the target with the source's
    value — silently discarding the target's previous value — and deletes
    the source. -/
theorem claim_C9 (m : List (String × String)) (s t : String) (v w : JVal)
    (fs : List (String × JVal)) (hd : disjTable m) (hm : (s, t) ∈ m)
    (huniq : ∀ p ∈ m, p.2 = t → p.1 = s)
    (hgs : dictGet s fs = some v) (htv : truthy v)
    (hgt : dictGet t fs = some w) (htw : truthy w) :
    dictGet t (renameKeys m fs) = some v ∧ dictGet s (renameKeys m fs) = none :=
  renameKeys_overwrite fs hd hm huniq hgs htv

/-- C9 witness: a single-mapping table on a node holding both keys: the
    target's old value `b` is discarded for the source's value `a`. -/
theorem claim_C9_witness :
    dictGet "romanised"
      (renameKeys [("korean_romanized", "romanised")]
        [("korean_romanized", JVal.str (enc "a")),
          ("romanised", JVal.str (enc "b"))]) = some (JVal.str (enc "a")) ∧
    dictGet "korean_romanized"
      (renameKeys [("korean_romanized", "romanised")]
        [("korean_romanized", JVal.str (enc "a")),
          ("romanised", JVal.str (enc "b"))]) = none :=
  claim_C9 [("korean_romanized", "romanised")] "korean_romanized" "romanised"
    (JVal.str (enc "a")) (JVal.str (enc "b"))
    [("korean_romanized", JVal.str (enc "a")), ("romanised", JVal.str (enc "b"))]
    (by decide) (by decide) (by decide) rfl (by decide) rfl (by decide)

/-! ### The technique/target decomposer
    (`Scripts/chon_ji_dan_gun_corrections.py`) -/

/-- `ChonJiDanGunCorrector._standardize_target`: canonicalize target-area
    vocabulary case-insensitively; empty and the literal `null` (and any
    unknown value) pass through unchanged. -/
def standardizeTarget (target : Str) : Str :=
  if target = [] ∨ target = enc "null" then target
  else if lowerStr target = enc "lower section" ∨ lowerStr target = enc "low section" then
    enc "Low Section"
  else if lowerStr target = enc "middle section" ∨ lowerStr target = enc "solar plexus" then
    enc "Middle Section"
  else if lowerStr target = enc "upper section" ∨ lowerStr target = enc "high section"
      ∨ lowerStr target = enc "head level" then
    enc "High Section"
  else target

/-- The compound-technique split table of `_split_technique_target`,
    written as the if-chain's association list (all keys distinct). -/
def splitTable : List (Str × Str × Str) :=
  [(enc "Low Outer Forearm Block", enc "Outer Forearm Block", enc "Low Section"),
   (enc "Middle Obverse Punch", enc "Obverse Punch", enc "Middle Section"),
   (enc "High Obverse Punch", enc "Obverse Punch", enc "High Section"),
   (enc "Middle Inner Forearm Block", enc "Inner Forearm Block", enc "Middle Section"),
   (enc "High Obverse Block", enc "Outer Forearm Block", enc "High Section"),
   (enc "Rising Block", enc "Forearm Rising Block", enc "High Section")]

/-- `ChonJiDanGunCorrector._split_technique_target` (the `move_num` and
    `pattern_name` parameters of the Python function are never read, so
    they are dropped here). -/
def splitTechniqueTarget (technique target : Str) : Str × Str :=
  if technique = enc "Low Outer Forearm Block" then
    (enc "Outer Forearm Block", enc "Low Section")
  else if technique = enc "Middle Obverse Punch" then
    (enc "Obverse Punch", enc "Middle Section")
  else if technique = enc "High Obverse Punch" then
    (enc "Obverse Punch", enc "High Section")
  else if technique = enc "Middle Inner Forearm Block" then
    (enc "Inner Forearm Block", enc "Middle Section")
  else if technique = enc "High Obverse Block" then
    (enc "Outer Forearm Block", enc "High Section")
  else if technique = enc "Rising Block" then
    (enc "Forearm Rising Block", enc "High Section")
  else (technique, standardizeTarget target)

/-! ### The correction-table value standardizer
    (`Scripts/update_patterns_from_csv.py`) -/

/-- One loaded CSV correction row (all required columns, already
    `.strip()`ed by `load_corrections`). -/
structure CorrRow where
  direction : Str
  movement : Str
  stance : Str
  technique : Str
  target : Str
deriving DecidableEq

/-- Python `pat in s` (substring containment). -/
def containsSub : Str → Str → Bool
  | pat, [] => pat.isEmpty
  | pat, c :: cs => pat.isPrefixOf (c :: cs) || containsSub pat cs

/-- Fuel-driven body of Python `str.replace(pat, repl)`: replace every
    non-overlapping occurrence left to right.  The fuel only forces
    structural recursion; `fuel = s.length` always suffices for a
    non-empty pattern (these scripts never replace an empty one). -/
def replaceGo : Nat → Str → Str → Str → Str
  | _, _, _, [] => []
  | 0, _, _, s => s
  | fuel + 1, pat, repl, c :: cs =>
    if !pat.isEmpty && pat.isPrefixOf (c :: cs) then
      repl ++ replaceGo fuel pat repl ((c :: cs).drop pat.length)
    else c :: replaceGo fuel pat repl cs

/-- Python `s.replace(pat, repl)` for a non-empty pattern. -/
def replaceAll (pat repl s : Str) : Str := replaceGo s.length pat repl s

/-- Python `str.strip()`: drop whitespace from both ends. -/
def stripStr (s : Str) : Str :=
  ((s.dropWhile isSpaceCp).reverse.dropWhile isSpaceCp).reverse

/-- Python `str.isdigit` on ASCII text: non-empty and all digits. -/
def isdigitStr (s : Str) : Bool := !s.isEmpty && s.all isDigitCp

/-- The degree sign `°` (U+00B0). -/
def deg : Nat := 176

/-- `PatternUpdater.standardize_values`: movement angles get a degree
    mark (bare `90` defaults to a left turn), `L Stance` is hyphenated,
    the technique is stripped; `direction` and `target` are copied.  The
    Python `elif stance == 'Walking Stance'` arm assigns the stance to
    itself, which is the identity, as is the fall-through. -/
def standardize_values (c : CorrRow) : CorrRow :=
  let movement := c.movement
  let m1 : Str :=
    if movement = enc "-" then enc "-"
    else if isdigitStr movement then
      (if movement = enc "90" then enc "Left " ++ movement ++ [deg]
       else if !([deg].isSuffixOf movement) then movement ++ [deg] else movement)
    else if !([deg].isSuffixOf movement) &&
        (containsSub (enc "90") movement || containsSub (enc "180") movement ||
         containsSub (enc "270") movement || containsSub (enc "360") movement ||
         containsSub (enc "45") movement || containsSub (enc "135") movement) then
      (if !(deg ∈ movement) then movement ++ [deg] else movement)
    else movement
  let stance := c.stance
  let s1 : Str :=
    if containsSub (enc "L Stance") stance && !(45 ∈ stance) then
      replaceAll (enc "L Stance") (enc "L-stance") stance
    else stance
  { c with movement := m1, stance := s1, technique := stripStr c.technique }

example : standardize_values ⟨[], enc "90", [], [], []⟩
    = ⟨[], enc "Left 90" ++ [deg], [], [], []⟩ := by decide
example : standardize_values ⟨[], enc "180", [], [], []⟩
    = ⟨[], enc "180" ++ [deg], [], [], []⟩ := by decide
example : standardize_values ⟨[], enc "-", enc "Walking Stance", [], []⟩
    = ⟨[], enc "-", enc "Walking Stance", [], []⟩ := by decide
example : standardize_values ⟨[], [], enc "Left L Stance", [], []⟩
    = ⟨[], [], enc "Left L-stance", [], []⟩ := by decide

/-! ### Claim C4 -/

theorem lowerStr_ne_of {targ w : Str} (h : lowerStr targ = w) (u : Str)
    (hw : lowerStr u ≠ w) : targ ≠ u := by
  rintro rfl
  exact hw h

/-- C4: the technique/target decomposer.  A technique found in the split
    table is replaced by the table's pair with the incoming target
    discarded; a technique not in the table passes through with its target
    canonicalized case-insensitively by the synonym lists, any other
    target — the empty string and the literal `null` included — passing
    through unchanged; and the two concrete examples hold. -/
theorem claim_C4 :
    (∀ e ∈ splitTable, ∀ targ targ2 : Str,
      splitTechniqueTarget e.1 targ = (e.2.1, e.2.2) ∧
      splitTechniqueTarget e.1 targ = splitTechniqueTarget e.1 targ2) ∧
    splitTechniqueTarget (enc "Low Outer Forearm Block") []
      = (enc "Outer Forearm Block", enc "Low Section") ∧
    (∀ tech targ, tech ∉ splitTable.map (fun e => e.1) →
      splitTechniqueTarget tech targ = (tech, standardizeTarget targ)) ∧
    (∀ targ, lowerStr targ = enc "lower section" ∨ lowerStr targ = enc "low section" →
      standardizeTarget targ = enc "Low Section") ∧
    (∀ targ, lowerStr targ = enc "middle section" ∨ lowerStr targ = enc "solar plexus" →
      standardizeTarget targ = enc "Middle Section") ∧
    (∀ targ, lowerStr targ = enc "upper section" ∨ lowerStr targ = enc "high section"
        ∨ lowerStr targ = enc "head level" →
      standardizeTarget targ = enc "High Section") ∧
    (∀ targ, lowerStr targ ∉ [enc "lower section", enc "low section",
        enc "middle section", enc "solar plexus", enc "upper section",
        enc "high section", enc "head level"] →
      standardizeTarget targ = targ) ∧
    splitTechniqueTarget (enc "Front Kick") (enc "middle section")
      = (enc "Front Kick", enc "Middle Section") := by
  refine ⟨?_, by decide, ?_, ?_, ?_, ?_, ?_, by decide⟩
  · intro e he targ targ2
    simp only [splitTable, List.mem_cons, List.not_mem_nil, or_false] at he
    rcases he with rfl | rfl | rfl | rfl | rfl | rfl <;> exact ⟨rfl, rfl⟩
  · intro tech targ h
    simp only [splitTable, List.map_cons, List.map_nil, List.mem_cons,
      List.not_mem_nil, or_false, not_or] at h
    obtain ⟨h1, h2, h3, h4, h5, h6⟩ := h
    unfold splitTechniqueTarget
    rw [if_neg h1, if_neg h2, if_neg h3, if_neg h4, if_neg h5, if_neg h6]
  · intro targ h
    have h0 : targ ≠ [] := by
      rcases h with h | h <;> exact lowerStr_ne_of h [] (by decide)
    have h1 : targ ≠ enc "null" := by
      rcases h with h | h <;> exact lowerStr_ne_of h (enc "null") (by decide)
    unfold standardizeTarget
    rw [if_neg (not_or.mpr ⟨h0, h1⟩), if_pos h]
  · intro targ h
    have h0 : targ ≠ [] := by
      rcases h with h | h <;> exact lowerStr_ne_of h [] (by decide)
    have h1 : targ ≠ enc "null" := by
      rcases h with h | h <;> exact lowerStr_ne_of h (enc "null") (by decide)
    have hlo : ¬ (lowerStr targ = enc "lower section" ∨ lowerStr targ = enc "low section") := by
      rcases h with h | h <;> rw [h] <;> decide
    unfold standardizeTarget
    rw [if_neg (not_or.mpr ⟨h0, h1⟩), if_neg hlo, if_pos h]
  · intro targ h
    have h0 : targ ≠ [] := by
      rcases h with h | h | h <;> exact lowerStr_ne_of h [] (by decide)
    have h1 : targ ≠ enc "null" := by
      rcases h with h | h | h <;> exact lowerStr_ne_of h (enc "null") (by decide)
    have hlo : ¬ (lowerStr targ = enc "lower section" ∨ lowerStr targ = enc "low section") := by
      rcases h with h | h | h <;> rw [h] <;> decide
    have hmi : ¬ (lowerStr targ = enc "middle section" ∨ lowerStr targ = enc "solar plexus") := by
      rcases h with h | h | h <;> rw [h] <;> decide
    unfold standardizeTarget
    rw [if_neg (not_or.mpr ⟨h0, h1⟩), if_neg hlo, if_neg hmi, if_pos h]
  · intro targ h
    simp only [List.mem_cons, List.not_mem_nil, or_false, not_or] at h
    obtain ⟨n1, n2, n3, n4, n5, n6, n7⟩ := h
    unfold standardizeTarget
    by_cases hg : targ = [] ∨ targ = enc "null"
    · rw [if_pos hg]
    · rw [if_neg hg, if_neg (not_or.mpr ⟨n1, n2⟩), if_neg (not_or.mpr ⟨n3, n4⟩),
        if_neg (by push_neg; exact ⟨n5, n6, n7⟩)]

/-- C4 witness: the table-miss branch applied at a concrete technique and
    target, and the case-insensitive canonicalization at `Head Level`. -/
theorem claim_C4_witness :
    splitTechniqueTarget (enc "Back Fist Strike") (enc "Head Level")
      = (enc "Back Fist Strike", standardizeTarget (enc "Head Level")) ∧
    standardizeTarget (enc "Head Level") = enc "High Section" :=
  ⟨claim_C4.2.2.1 (enc "Back Fist Strike") (enc "Head Level") (by decide),
   claim_C4.2.2.2.2.2.1 (enc "Head Level") (Or.inr (Or.inr (by decide)))⟩

/-! ### Claim C5 -/

theorem deg_not_mem_of_digits {s : Str} (h : isdigitStr s = true) : deg ∉ s := by
  intro hm
  rcases Bool.and_eq_true_iff.mp h with ⟨_, hall⟩
  have := List.all_eq_true.mp hall deg hm
  exact absurd this (by decide)

theorem deg_not_suffix_of_digits {s : Str} (h : isdigitStr s = true) :
    [deg].isSuffixOf s = false := by
  by_contra hb
  have hs : [deg].isSuffixOf s = true := by
    cases hx : [deg].isSuffixOf s
    · exact absurd hx hb
    · rfl
  have hsuf : [deg] <:+ s := by
    rwa [List.isSuffixOf_iff_suffix] at hs
  rcases hsuf with ⟨t, rfl⟩
  exact deg_not_mem_of_digits h (by simp)

/-- C5, counterexample: `"Walking Stance"` is a qualifier plus the word
    `Stance` with no hyphen, yet `standardize_values` passes it through
    unchanged (the code hyphenates only `L Stance`), so the result carries
    no hyphen at all — against the claimed rewrite to a hyphenated
    spelling. -/
theorem claim_C5_counterexample :
    (standardize_values ⟨[], enc "-", enc "Walking Stance", [], []⟩).stance
      = enc "Walking Stance" ∧
    containsSub (enc " Stance") (enc "Walking Stance") = true ∧
    (45 : Nat) ∉ enc "Walking Stance" :=
  ⟨by decide, by decide, by decide⟩

/-- C5 (amended): movement values that are all digits get the degree mark
    appended, except that the bare `90` becomes `Left 90°`; a movement
    already carrying a degree mark, and the no-movement marker `-`, pass
    through unchanged.  For stances, only the sub-string `L Stance` (in a
    hyphen-free stance) is rewritten, to `L-stance`; every other stance
    value — `Walking Stance` and all other unhyphenated qualifier-plus-
    `Stance` names included — passes through unchanged. -/
theorem claim_C5 :
    (∀ c : CorrRow, isdigitStr c.movement = true → c.movement ≠ enc "90" →
      (standardize_values c).movement = c.movement ++ [deg]) ∧
    (∀ c : CorrRow, c.movement = enc "90" →
      (standardize_values c).movement = enc "Left 90" ++ [deg]) ∧
    (∀ c : CorrRow, deg ∈ c.movement →
      (standardize_values c).movement = c.movement) ∧
    (∀ c : CorrRow, c.movement = enc "-" →
      (standardize_values c).movement = enc "-") ∧
    (standardize_values ⟨[], enc "-", enc "L Stance", [], []⟩).stance
      = enc "L-stance" ∧
    (∀ c : CorrRow, containsSub (enc "L Stance") c.stance = true →
      (45 : Nat) ∉ c.stance →
      (standardize_values c).stance
        = replaceAll (enc "L Stance") (enc "L-stance") c.stance) ∧
    (∀ c : CorrRow, containsSub (enc "L Stance") c.stance = false ∨ (45 : Nat) ∈ c.stance →
      (standardize_values c).stance = c.stance) := by
  refine ⟨?_, ?_, ?_, ?_, by decide, ?_, ?_⟩
  · intro c hdig h90
    have hne : c.movement ≠ enc "-" := by
      intro he
      rw [he] at hdig
      exact absurd hdig (by decide)
    simp only [standardize_values]
    rw [if_neg hne, if_pos hdig, if_neg h90,
      if_pos (by rw [deg_not_suffix_of_digits hdig]; rfl)]
  · intro c h90
    simp only [standardize_values]
    rw [if_neg (by rw [h90]; decide), if_pos (by rw [h90]; decide), if_pos h90, h90]
    decide
  · intro c hdeg
    simp only [standardize_values]
    by_cases hm : c.movement = enc "-"
    · rw [if_pos hm, hm]
    · rw [if_neg hm]
      by_cases hdig : isdigitStr c.movement = true
      · exact absurd hdeg (deg_not_mem_of_digits hdig)
      · rw [if_neg hdig]
        by_cases hbig : (!([deg].isSuffixOf c.movement) &&
            (containsSub (enc "90") c.movement || containsSub (enc "180") c.movement ||
             containsSub (enc "270") c.movement || containsSub (enc "360") c.movement ||
             containsSub (enc "45") c.movement || containsSub (enc "135") c.movement)) = true
        · rw [if_pos hbig, if_neg (by simpa using hdeg)]
        · rw [if_neg hbig]
  · intro c hm
    simp only [standardize_values]
    rw [if_pos hm]
  · intro c hc h45
    simp only [standardize_values]
    rw [if_pos (by rw [hc]; simpa using h45)]
  · intro c h
    simp only [standardize_values]
    rw [if_neg ?_]
    rcases h with h | h
    · rw [h]
      simp
    · intro hb
      rcases Bool.and_eq_true_iff.mp hb with ⟨_, h2⟩
      simp at h2
      exact h2 h

/-- C5 witness: the amended statement applied at the concrete movements
    `180` (gets the mark), `90` (left default), `-`, an already-marked
    value, and the stance rules at `L Stance` and `Walking Stance`. -/
theorem claim_C5_witness :
    (standardize_values ⟨[], enc "180", [], [], []⟩).movement = enc "180" ++ [deg] ∧
    (standardize_values ⟨[], enc "90", [], [], []⟩).movement = enc "Left 90" ++ [deg] ∧
    (standardize_values ⟨[], enc "Left 90" ++ [deg], [], [], []⟩).movement
      = enc "Left 90" ++ [deg] ∧
    (standardize_values ⟨[], enc "-", [], [], []⟩).movement = enc "-" ∧
    (standardize_values ⟨[], [], enc "Walking Stance", [], []⟩).stance
      = enc "Walking Stance" :=
  ⟨claim_C5.1 ⟨[], enc "180", [], [], []⟩ (by decide) (by decide),
   claim_C5.2.1 ⟨[], enc "90", [], [], []⟩ rfl,
   claim_C5.2.2.1 ⟨[], enc "Left 90" ++ [deg], [], [], []⟩ (by decide),
   claim_C5.2.2.2.1 ⟨[], enc "-", [], [], []⟩ rfl,
   claim_C5.2.2.2.2.2.2 ⟨[], [], enc "Walking Stance", [], []⟩ (Or.inl (by decide))⟩

/-! ### Pattern documents: the CSV updater, the Chon-Ji/Dan-Gun corrector
    and the Korean-romanization corrector -/

/-- One move of a pattern document.  The scripts read absent keys through
    `dict.get(key, default)`, so a move is modelled with total fields, the
    defaults standing for absent keys. -/
structure MoveR where
  move_number : Nat
  direction : Str
  movement : Str
  stance : Str
  technique : Str
  target : Str
  korean_technique : Str
deriving DecidableEq

/-- One pattern of a pattern document (`data['patterns']` element). -/
structure PatternR where
  name : Str
  moves : List MoveR
deriving DecidableEq

/-- One change-ledger record: a `file_corrections` entry of the correctors,
    or one changed-field line `update_pattern_file` reports. -/
structure LedgerE where
  move : Nat
  field : Str
  old : Str
  new : Str
deriving DecidableEq

/-- The per-move block of `PatternUpdater.update_pattern_file`: standardize
    the row, report each of the five fields whose old value differs from
    the standardized one (in the fixed field order), then overwrite all
    five fields with the standardized values. -/
def update_move (move : MoveR) (corr : CorrRow) : MoveR × List LedgerE :=
  let c := standardize_values corr
  let entries :=
    (if move.direction ≠ c.direction then
      [⟨move.move_number, enc "direction", move.direction, c.direction⟩] else []) ++
    (if move.movement ≠ c.movement then
      [⟨move.move_number, enc "movement", move.movement, c.movement⟩] else []) ++
    (if move.stance ≠ c.stance then
      [⟨move.move_number, enc "stance", move.stance, c.stance⟩] else []) ++
    (if move.technique ≠ c.technique then
      [⟨move.move_number, enc "technique", move.technique, c.technique⟩] else []) ++
    (if move.target ≠ c.target then
      [⟨move.move_number, enc "target", move.target, c.target⟩] else [])
  ({ move with
      direction := c.direction, movement := c.movement,
      stance := c.stance, technique := c.technique, target := c.target }, entries)

/-- The move loop of `update_pattern_file` on one pattern: a move whose
    `move_number` has a correction row is updated, others are left alone. -/
def updateMoves (corrs : List (Nat × CorrRow)) :
    List MoveR → List MoveR × List LedgerE
  | [] => ([], [])
  | m :: ms =>
    let rest := updateMoves corrs ms
    match corrs.lookup m.move_number with
    | some corr =>
      let one := update_move m corr
      (one.1 :: rest.1, one.2 ++ rest.2)
    | none => (m :: rest.1, rest.2)

/-- `PatternUpdater.update_pattern_file`: update the first pattern carrying
    the requested name (the Python loop breaks there) and rewrite the
    file unconditionally — the final Boolean says whether the file is
    written, and it is `true` on every path. -/
def update_pattern_file (pname : Str) (corrs : List (Nat × CorrRow)) :
    List PatternR → List PatternR × List LedgerE × Bool
  | [] => ([], [], true)
  | p :: ps =>
    if p.name = pname then
      let r := updateMoves corrs p.moves
      ({ p with moves := r.1 } :: ps, r.2, true)
    else
      let rest := update_pattern_file pname corrs ps
      (p :: rest.1, rest.2.1, rest.2.2)

/-- The stance fix shared by `_correct_chon_ji` and `_correct_dan_gun`:
    strip every `Left `/`Right ` occurrence when the stance starts with
    one, and hyphenate a resulting bare `L Stance`.  The Boolean reports
    whether the branch fired (the code logs exactly then). -/
def correctStance (stance : Str) : Str × Bool :=
  if (enc "Left ").isPrefixOf stance || (enc "Right ").isPrefixOf stance then
    let ns := replaceAll (enc "Right ") [] (replaceAll (enc "Left ") [] stance)
    (if ns = enc "L Stance" then enc "L-stance" else ns, true)
  else (stance, false)

/-- The per-move body of `ChonJiDanGunCorrector._correct_chon_ji`. -/
def correctChonJiMove (m : MoveR) : MoveR × List LedgerE :=
  let st := correctStance m.stance
  let l1 := if st.2 then [⟨m.move_number, enc "stance", m.stance, st.1⟩] else []
  let nt := splitTechniqueTarget m.technique m.target
  let l2 := if nt.1 ≠ m.technique then
    [⟨m.move_number, enc "technique", m.technique, nt.1⟩] else []
  let l3 := if nt.2 ≠ m.target then
    [⟨m.move_number, enc "target", m.target, nt.2⟩] else []
  ({ m with stance := st.1, technique := nt.1, target := nt.2 }, l1 ++ l2 ++ l3)

/-- The per-move body of `_correct_dan_gun`: stance fix, the two typo
    fixes, then the technique/target split on the fixed technique. -/
def correctDanGunMove (m : MoveR) : MoveR × List LedgerE :=
  let st := correctStance m.stance
  let l1 := if st.2 then [⟨m.move_number, enc "stance", m.stance, st.1⟩] else []
  let t1 := if m.technique = enc "High Observe Punch"
    then enc "High Obverse Punch" else m.technique
  let l2 := if m.technique = enc "High Observe Punch" then
    [⟨m.move_number, enc "technique", m.technique, enc "High Obverse Punch"⟩] else []
  let t2 := if t1 = enc "Twin Outer Forearm Bloack"
    then enc "Twin Outer Forearm Block" else t1
  let l3 := if t1 = enc "Twin Outer Forearm Bloack" then
    [⟨m.move_number, enc "technique", t1, enc "Twin Outer Forearm Block"⟩] else []
  let nt := splitTechniqueTarget t2 m.target
  let l4 := if nt.1 ≠ t2 then [⟨m.move_number, enc "technique", t2, nt.1⟩] else []
  let l5 := if nt.2 ≠ m.target then [⟨m.move_number, enc "target", m.target, nt.2⟩] else []
  ({ m with stance := st.1, technique := nt.1, target := nt.2 },
    l1 ++ l2 ++ l3 ++ l4 ++ l5)

/-- Fold a per-move corrector over a move list, concatenating ledgers. -/
def foldMoves (f : MoveR → MoveR × List LedgerE) :
    List MoveR → List MoveR × List LedgerE
  | [] => ([], [])
  | m :: ms =>
    let one := f m
    let rest := foldMoves f ms
    (one.1 :: rest.1, one.2 ++ rest.2)

/-- The pattern dispatch of `ChonJiDanGunCorrector.apply_corrections`. -/
def correctPattern (p : PatternR) : PatternR × List LedgerE :=
  if p.name = enc "Chon-Ji" then
    let r := foldMoves correctChonJiMove p.moves
    ({ p with moves := r.1 }, r.2)
  else if p.name = enc "Dan-Gun" then
    let r := foldMoves correctDanGunMove p.moves
    ({ p with moves := r.1 }, r.2)
  else (p, [])

/-- The pattern loop of `apply_corrections`. -/
def correctPatterns : List PatternR → List PatternR × List LedgerE
  | [] => ([], [])
  | p :: ps =>
    let one := correctPattern p
    let rest := correctPatterns ps
    (one.1 :: rest.1, one.2 ++ rest.2)

/-- `ChonJiDanGunCorrector.apply_corrections` on a parsed file: every
    pattern is corrected, and the file is rewritten exactly when some
    correction was made (`corrections_made`, which holds exactly when the
    ledger is non-empty). -/
def apply_corrections (doc : List PatternR) :
    List PatternR × List LedgerE × Bool :=
  let r := correctPatterns doc
  (r.1, r.2, !r.2.isEmpty)

/-- One terminology entry as `fix_terminology_file` sees it: the two
    properties it may rewrite, `none` when the key is absent. -/
structure TermEntry where
  english : Option Str
  romanised : Option Str
deriving DecidableEq

/-- One property fix of `fix_terminology_file`: rewrite only when the
    title-cased text differs. -/
def fixField : Option Str → Option Str × Bool
  | none => (none, false)
  | some s =>
    if to_title_case s ≠ s then (some (to_title_case s), true) else (some s, false)

/-- The per-entry body of `fix_terminology_file`. -/
def fixTermEntry (t : TermEntry) : TermEntry × Bool :=
  let e := fixField t.english
  let r := fixField t.romanised
  (⟨e.1, r.1⟩, e.2 || r.2)

/-- `fix_terminology_file` (`Scripts/fix-title-case.py`) on the parsed
    `terminology` array: the Boolean is `changed`, and the file is written
    back exactly when it is `true`. -/
def fix_terminology_file : List TermEntry → List TermEntry × Bool
  | [] => ([], false)
  | t :: ts =>
    let one := fixTermEntry t
    let rest := fix_terminology_file ts
    (one.1 :: rest.1, one.2 || rest.2)

/-- The English-to-romanized lookup table
    `KoreanRomanizationCorrector._build_korean_mapping` (62 entries, all
    keys distinct, in source order; code 39 is the apostrophe). -/
def koreanMapping : List (Str × Str) :=
  [(enc "Obverse Punch", enc "Baro Jirugi"),
   (enc "Reverse Punch", enc "Bandae Jirugi"),
   (enc "High Punch", enc "Nopunde Jirugi"),
   (enc "Middle Punch", enc "Kaunde Jirugi"),
   (enc "Low Punch", enc "Najunde Jirugi"),
   (enc "Upset Punch", enc "Dwijibo Jirugi"),
   (enc "Twin Vertical Punch", enc "Sang Sewo Jirugi"),
   (enc "Double Punch", enc "Doo Jirugi"),
   (enc "Flat Fingertip Thrust", enc "Opun Sonkut Tulgi"),
   (enc "Straight Fingertip Thrust", enc "Sun Sonkut Tulgi"),
   (enc "Upset Fingertip Thrust", enc "Dwijibo Sonkut Tulgi"),
   (enc "Inner Forearm Block", enc "An Palmok Makgi"),
   (enc "Inner Forearm Middle Block", enc "An Palmok Kaunde Makgi"),
   (enc "Outer Forearm Block", enc "Bakat Palmok Makgi"),
   (enc "Outer Forearm Low Block", enc "Bakat Palmok Najunde Makgi"),
   (enc "Outer Forearm Middle Block", enc "Bakat Palmok Kaunde Makgi"),
   (enc "Outer Forearm High Block", enc "Bakat Palmok Nopunde Makgi"),
   (enc "Outer Forearm Middle Inward Block", enc "Bakat Palmok Kaunde Anaero Makgi"),
   (enc "Twin Outer Forearm Block", enc "Sang Bakat Palmok Makgi"),
   (enc "Double Forearm Block", enc "Doo Palmok Makgi"),
   (enc "Forearm Guarding Block", enc "Palmok Daebi Makgi"),
   (enc "Forearm Rising Block", enc "Palmok Chookyo Makgi"),
   (enc "Inner Forearm Circular Block", enc "An Palmok Dollimyo Makgi"),
   (enc "Knife Hand Block", enc "Sonkal Makgi"),
   (enc "Knife Hand Guarding Block", enc "Sonkal Daebi Makgi"),
   (enc "Knife Hand Strike", enc "Sonkal Taerigi"),
   (enc "Inward Knife Hand Strike", enc "Anaero Sonkal Taerigi"),
   (enc "Knife Hand Downward Strike", enc "Naeryo Sonkal Taerigi"),
   (enc "Reverse Knife Hand Strike", enc "Bandae Sonkal Taerigi"),
   (enc "Reverse Knife Hand Inward Strike", enc "Sonkal Dung Anaero Taerigi"),
   (enc "Twin Knife Hand Block", enc "Sang Sonkal Makgi"),
   (enc "X Knife Hand Checking Block", enc "Kyocha Sonkal Momchau Makgi"),
   (enc "Back Fist Strike", enc "Dung Joomuk Taerigi"),
   (enc "Back Fist Rear Strike", enc "Dung Joomuk Dwutcha Taerigi"),
   (enc "Back Fist Side Strike", enc "Dung Joomuk Yop Taerigi"),
   (enc "Back Fist Strike/Outer Forearm Low Block", enc "Dung Joomuk Taerigi/Bakat Palmok Najunde Makgi"),
   (enc "Palm Pushing Block", enc "Sonbadak Mireo Makgi"),
   (enc "Twin Palm Upward Block", enc "Sang Sonbadak Ollyo Makgi"),
   (enc "Twin Upward Palm Block", enc "Sang Sonbadak Ollyo Makgi"),
   (enc "Front Kick", enc "Ap Chagi"),
   (enc "Front Snap Kick", enc "Ap Cha Busigi"),
   (enc "Side Piercing Kick", enc "Yop Cha Jirugi"),
   (enc "Side Piercing Kick to Rear", enc "Dwi Yop Cha Jirugi"),
   (enc "Turning Kick", enc "Dollyo Chagi"),
   (enc "Reverse Side Kick", enc "Bandae Yop Chagi"),
   (enc "Flying Side Piercing Kick", enc "Twimyo Yop Cha Jirugi"),
   (enc "Rising Kick", enc "Ap Cha Olligi"),
   (enc "Knee Kick", enc "Moorup Chagi"),
   (enc "X-Fist Pressing Block", enc "Kyocha Joomuk Noollo Makgi"),
   (enc "U-shape Block", enc "Digutja Makgi"),
   (enc "W Shaped Block", enc "San Makgi"),
   (enc "Double Forearm Pushing Block", enc "Doo Palmok Mireo Makgi"),
   (enc "Grab (Opponent" ++ [39] ++ enc "s Head)", enc "Meori Japgi"),
   (enc "Grab to Shoulders", enc "Eokae Japgi"),
   (enc "Release Move", enc "Nohgi"),
   (enc "Posture Move", enc "Jasei Dongjak"),
   (enc "Flying Side Piercing Kick / Knife Hand Guarding Block", enc "Twimyo Yop Cha Jirugi/Sonkal Daebi Makgi"),
   (enc "Back Fist Strike / Outer Forearm Low Block", enc "Dung Joomuk Taerigi/Bakat Palmok Najunde Makgi"),
   (enc "Front Outer Forearm Block / Back Fist Side Strike", enc "Ap Bakat Palmok Makgi/Dung Joomuk Yop Taerigi"),
   (enc "Inner Forearm Block / Outer Forearm Block", enc "An Palmok Makgi/Bakat Palmok Makgi"),
   (enc "Jump 360 to Knife Hand Guarding Block", enc "360 Twimyo Sonkal Daebi Makgi"),
   (enc "Side Elbow Thrust", enc "Yop Palkup Taerigi")]

/-- The per-move body of
    `KoreanRomanizationCorrector.correct_korean_romanizations`: overwrite
    `korean_technique` only when the English technique is in the mapping
    and the stored romanization differs; the Boolean reports whether a
    correction was applied (one ledger entry). -/
def correctKoreanMove (m : MoveR) : MoveR × Bool :=
  match koreanMapping.lookup m.technique with
  | some ck =>
    if m.korean_technique ≠ ck then ({ m with korean_technique := ck }, true)
    else (m, false)
  | none => (m, false)

/-- The move loop of `correct_korean_romanizations`, counting applied
    corrections. -/
def korMoves : List MoveR → List MoveR × Nat
  | [] => ([], 0)
  | m :: ms =>
    let one := correctKoreanMove m
    let rest := korMoves ms
    (one.1 :: rest.1, (if one.2 then 1 else 0) + rest.2)

/-- `correct_korean_romanizations` on a parsed pattern file: every move of
    every pattern is corrected; the count is the number of ledger entries,
    and the file is rewritten exactly when it is non-zero. -/
def correct_korean_romanizations : List PatternR → List PatternR × Nat
  | [] => ([], 0)
  | p :: ps =>
    let r := korMoves p.moves
    let rest := correct_korean_romanizations ps
    ({ p with moves := r.1 } :: rest.1, r.2 + rest.2)

/-! ### Lemmas for the per-file writers -/

theorem update_move_noop {m : MoveR} {corr : CorrRow}
    (h : (update_move m corr).2 = []) : (update_move m corr).1 = m := by
  simp only [update_move, List.append_eq_nil] at h
  obtain ⟨⟨⟨⟨h1, h2⟩, h3⟩, h4⟩, h5⟩ := h
  have e1 : m.direction = (standardize_values corr).direction := by
    by_contra hc
    simp [hc] at h1
  have e2 : m.movement = (standardize_values corr).movement := by
    by_contra hc
    simp [hc] at h2
  have e3 : m.stance = (standardize_values corr).stance := by
    by_contra hc
    simp [hc] at h3
  have e4 : m.technique = (standardize_values corr).technique := by
    by_contra hc
    simp [hc] at h4
  have e5 : m.target = (standardize_values corr).target := by
    by_contra hc
    simp [hc] at h5
  simp only [update_move]
  rcases m with ⟨n, d, mv, st, te, ta, ko⟩
  simp only at e1 e2 e3 e4 e5
  simp [← e1, ← e2, ← e3, ← e4, ← e5]

theorem updateMoves_cons_none {corrs : List (Nat × CorrRow)} {m : MoveR}
    (ms : List MoveR) (hl : corrs.lookup m.move_number = none) :
    updateMoves corrs (m :: ms)
      = (m :: (updateMoves corrs ms).1, (updateMoves corrs ms).2) := by
  simp [updateMoves, hl]

theorem updateMoves_cons_some {corrs : List (Nat × CorrRow)} {m : MoveR}
    {corr : CorrRow} (ms : List MoveR)
    (hl : corrs.lookup m.move_number = some corr) :
    updateMoves corrs (m :: ms)
      = ((update_move m corr).1 :: (updateMoves corrs ms).1,
         (update_move m corr).2 ++ (updateMoves corrs ms).2) := by
  simp [updateMoves, hl]

theorem updateMoves_noop {corrs : List (Nat × CorrRow)} {ms : List MoveR}
    (h : (updateMoves corrs ms).2 = []) : (updateMoves corrs ms).1 = ms := by
  induction ms with
  | nil => rfl
  | cons m ms ih =>
    cases hl : corrs.lookup m.move_number with
    | none =>
      rw [updateMoves_cons_none ms hl] at h ⊢
      show m :: (updateMoves corrs ms).1 = m :: ms
      rw [ih h]
    | some corr =>
      rw [updateMoves_cons_some ms hl] at h ⊢
      have h2 : (update_move m corr).2 = [] ∧ (updateMoves corrs ms).2 = [] :=
        List.append_eq_nil.mp h
      show (update_move m corr).1 :: (updateMoves corrs ms).1 = m :: ms
      rw [update_move_noop h2.1, ih h2.2]

theorem update_pattern_file_writes (pname : Str) (corrs : List (Nat × CorrRow))
    (doc : List PatternR) : (update_pattern_file pname corrs doc).2.2 = true := by
  induction doc with
  | nil => rfl
  | cons p ps ih =>
    simp only [update_pattern_file]
    by_cases hp : p.name = pname
    · rw [if_pos hp]
    · rw [if_neg hp]
      simpa using ih

theorem update_pattern_file_noop {pname : Str} {corrs : List (Nat × CorrRow)}
    {doc : List PatternR} (h : (update_pattern_file pname corrs doc).2.1 = []) :
    (update_pattern_file pname corrs doc).1 = doc := by
  induction doc with
  | nil => rfl
  | cons p ps ih =>
    simp only [update_pattern_file] at h ⊢
    by_cases hp : p.name = pname
    · rw [if_pos hp] at h ⊢
      simp only at h ⊢
      rcases p with ⟨nm, ms⟩
      simp only at h ⊢
      rw [updateMoves_noop h]
    · rw [if_neg hp] at h ⊢
      simp only at h ⊢
      rw [ih h]

theorem correctStance_noop {s : Str} (h : (correctStance s).2 = false) :
    (correctStance s).1 = s := by
  unfold correctStance at h ⊢
  by_cases hc : ((enc "Left ").isPrefixOf s || (enc "Right ").isPrefixOf s) = true
  · rw [if_pos hc] at h
    cases h
  · rw [if_neg hc]

theorem correctChonJiMove_noop {m : MoveR}
    (h : (correctChonJiMove m).2 = []) : (correctChonJiMove m).1 = m := by
  simp only [correctChonJiMove, List.append_eq_nil] at h
  obtain ⟨⟨h1, h2⟩, h3⟩ := h
  have e1 : (correctStance m.stance).2 = false := by
    by_contra hc
    simp [hc] at h1
  have e2 : (splitTechniqueTarget m.technique m.target).1 = m.technique := by
    by_contra hc
    simp [hc] at h2
  have e3 : (splitTechniqueTarget m.technique m.target).2 = m.target := by
    by_contra hc
    simp [hc] at h3
  simp only [correctChonJiMove]
  rcases m with ⟨n, d, mv, st, te, ta, ko⟩
  simp only at e1 e2 e3 ⊢
  rw [correctStance_noop e1, e2, e3]

theorem correctDanGunMove_noop {m : MoveR}
    (h : (correctDanGunMove m).2 = []) : (correctDanGunMove m).1 = m := by
  simp only [correctDanGunMove, List.append_eq_nil] at h
  obtain ⟨⟨⟨⟨h1, h2⟩, h3⟩, h4⟩, h5⟩ := h
  have e1 : (correctStance m.stance).2 = false := by
    by_contra hc
    simp [hc] at h1
  have e2 : m.technique ≠ enc "High Observe Punch" := by
    intro hc
    simp [hc] at h2
  have e2b : (if m.technique = enc "High Observe Punch"
      then enc "High Obverse Punch" else m.technique) = m.technique := if_neg e2
  have e3 : m.technique ≠ enc "Twin Outer Forearm Bloack" := by
    intro hc
    rw [e2b, if_pos hc] at h3
    cases h3
  have e3b : (if m.technique = enc "Twin Outer Forearm Bloack"
      then enc "Twin Outer Forearm Block" else m.technique) = m.technique := if_neg e3
  rw [e2b] at h4 h5
  rw [e3b] at h4 h5
  have e4 : (splitTechniqueTarget m.technique m.target).1 = m.technique := by
    by_contra hc
    simp [hc] at h4
  have e5 : (splitTechniqueTarget m.technique m.target).2 = m.target := by
    by_contra hc
    simp [hc] at h5
  simp only [correctDanGunMove]
  rcases m with ⟨n, d, mv, st, te, ta, ko⟩
  simp only at e1 e2b e3b e4 e5 ⊢
  rw [correctStance_noop e1, e2b, e3b, e4, e5]

theorem foldMoves_noop {f : MoveR → MoveR × List LedgerE}
    (hf : ∀ m, (f m).2 = [] → (f m).1 = m) {ms : List MoveR}
    (h : (foldMoves f ms).2 = []) : (foldMoves f ms).1 = ms := by
  induction ms with
  | nil => rfl
  | cons m ms ih =>
    simp only [foldMoves, List.append_eq_nil] at h ⊢
    rw [hf m h.1, ih h.2]

theorem correctPattern_noop {p : PatternR}
    (h : (correctPattern p).2 = []) : (correctPattern p).1 = p := by
  unfold correctPattern at h ⊢
  by_cases h1 : p.name = enc "Chon-Ji"
  · rw [if_pos h1] at h ⊢
    simp only at h ⊢
    rcases p with ⟨nm, ms⟩
    simp only at h ⊢
    rw [foldMoves_noop (fun m hm => correctChonJiMove_noop hm) h]
  · rw [if_neg h1] at h ⊢
    by_cases h2 : p.name = enc "Dan-Gun"
    · rw [if_pos h2] at h ⊢
      simp only at h ⊢
      rcases p with ⟨nm, ms⟩
      simp only at h ⊢
      rw [foldMoves_noop (fun m hm => correctDanGunMove_noop hm) h]
    · rw [if_neg h2]

theorem correctPatterns_noop {doc : List PatternR}
    (h : (correctPatterns doc).2 = []) : (correctPatterns doc).1 = doc := by
  induction doc with
  | nil => rfl
  | cons p ps ih =>
    simp only [correctPatterns, List.append_eq_nil] at h ⊢
    rw [correctPattern_noop h.1, ih h.2]

theorem fixField_noop {o : Option Str} (h : (fixField o).2 = false) :
    (fixField o).1 = o := by
  cases o with
  | none => rfl
  | some s =>
    by_cases hc : to_title_case s ≠ s
    · simp [fixField, hc] at h
    · simp [fixField, hc]

theorem fixTermEntry_noop {t : TermEntry} (h : (fixTermEntry t).2 = false) :
    (fixTermEntry t).1 = t := by
  simp only [fixTermEntry, Bool.or_eq_false_iff] at h
  rcases t with ⟨e, r⟩
  simp only [fixTermEntry]
  rw [fixField_noop h.1, fixField_noop h.2]

theorem fix_terminology_file_noop {ts : List TermEntry}
    (h : (fix_terminology_file ts).2 = false) :
    (fix_terminology_file ts).1 = ts := by
  induction ts with
  | nil => rfl
  | cons t ts ih =>
    simp only [fix_terminology_file, Bool.or_eq_false_iff] at h ⊢
    rw [fixTermEntry_noop h.1, ih h.2]

theorem correctKoreanMove_none {m : MoveR}
    (hl : koreanMapping.lookup m.technique = none) :
    correctKoreanMove m = (m, false) := by
  simp [correctKoreanMove, hl]

theorem correctKoreanMove_keep {m : MoveR} {ck : Str}
    (hl : koreanMapping.lookup m.technique = some ck)
    (he : m.korean_technique = ck) :
    correctKoreanMove m = (m, false) := by
  simp [correctKoreanMove, hl, he]

theorem correctKoreanMove_set {m : MoveR} {ck : Str}
    (hl : koreanMapping.lookup m.technique = some ck)
    (he : m.korean_technique ≠ ck) :
    correctKoreanMove m = ({ m with korean_technique := ck }, true) := by
  simp [correctKoreanMove, hl, he]

theorem correctKoreanMove_stable (m : MoveR) :
    correctKoreanMove (correctKoreanMove m).1 = ((correctKoreanMove m).1, false) := by
  cases hl : koreanMapping.lookup m.technique with
  | none =>
    rw [correctKoreanMove_none hl]
    exact correctKoreanMove_none hl
  | some ck =>
    by_cases he : m.korean_technique = ck
    · rw [correctKoreanMove_keep hl he]
      exact correctKoreanMove_keep hl he
    · rw [correctKoreanMove_set hl he]
      have hl2 : koreanMapping.lookup
          ({ m with korean_technique := ck } : MoveR).technique = some ck := hl
      exact correctKoreanMove_keep hl2 rfl

theorem korMoves_stable (ms : List MoveR) :
    korMoves (korMoves ms).1 = ((korMoves ms).1, 0) := by
  induction ms with
  | nil => rfl
  | cons m ms ih =>
    simp only [korMoves]
    rw [correctKoreanMove_stable m, ih]
    simp

theorem correct_korean_stable (doc : List PatternR) :
    correct_korean_romanizations (correct_korean_romanizations doc).1
      = ((correct_korean_romanizations doc).1, 0) := by
  induction doc with
  | nil => rfl
  | cons p ps ih =>
    simp only [correct_korean_romanizations]
    rw [korMoves_stable p.moves, ih]
    simp

/-! ### Claims C6, C7 and C10 -/

/-- C6: applying a correction row to a move reports exactly the fields
    whose old value differs from the standardized new value — the ledger
    is the five-candidate list filtered by actual change, so a no-op
    overwrite is never logged and every entry is a real change — and the
    Dan-Gun example: correcting move 4's technique `High Observe Punch`
    to `High Obverse Punch` (all other columns matching) yields exactly
    one ledger entry and persists the corrected value. -/
theorem claim_C6 :
    (∀ (move : MoveR) (corr : CorrRow),
      (update_move move corr).2 =
        ([⟨move.move_number, enc "direction", move.direction,
            (standardize_values corr).direction⟩,
          ⟨move.move_number, enc "movement", move.movement,
            (standardize_values corr).movement⟩,
          ⟨move.move_number, enc "stance", move.stance,
            (standardize_values corr).stance⟩,
          ⟨move.move_number, enc "technique", move.technique,
            (standardize_values corr).technique⟩,
          ⟨move.move_number, enc "target", move.target,
            (standardize_values corr).target⟩] : List LedgerE).filter
          (fun e => decide (e.old ≠ e.new))) ∧
    (∀ (move : MoveR) (corr : CorrRow) (e : LedgerE),
      e ∈ (update_move move corr).2 → e.old ≠ e.new) ∧
    update_pattern_file (enc "Dan-Gun")
        [(4, ⟨enc "N", enc "-", enc "L-stance", enc "High Obverse Punch",
          enc "High Section"⟩)]
        [⟨enc "Dan-Gun", [⟨4, enc "N", enc "-", enc "L-stance",
          enc "High Observe Punch", enc "High Section", []⟩]⟩]
      = ([⟨enc "Dan-Gun", [⟨4, enc "N", enc "-", enc "L-stance",
            enc "High Obverse Punch", enc "High Section", []⟩]⟩],
         [⟨4, enc "technique", enc "High Observe Punch", enc "High Obverse Punch"⟩],
         true) := by
  have hfe : ∀ (move : MoveR) (corr : CorrRow),
      (update_move move corr).2 =
        ([⟨move.move_number, enc "direction", move.direction,
            (standardize_values corr).direction⟩,
          ⟨move.move_number, enc "movement", move.movement,
            (standardize_values corr).movement⟩,
          ⟨move.move_number, enc "stance", move.stance,
            (standardize_values corr).stance⟩,
          ⟨move.move_number, enc "technique", move.technique,
            (standardize_values corr).technique⟩,
          ⟨move.move_number, enc "target", move.target,
            (standardize_values corr).target⟩] : List LedgerE).filter
          (fun e => decide (e.old ≠ e.new)) := by
    intro move corr
    simp only [update_move]
    by_cases h1 : move.direction = (standardize_values corr).direction <;>
      by_cases h2 : move.movement = (standardize_values corr).movement <;>
      by_cases h3 : move.stance = (standardize_values corr).stance <;>
      by_cases h4 : move.technique = (standardize_values corr).technique <;>
      by_cases h5 : move.target = (standardize_values corr).target <;>
      simp [List.filter_cons, h1, h2, h3, h4, h5]
  refine ⟨hfe, ?_, by decide⟩
  intro move corr e he
  rw [hfe move corr] at he
  exact of_decide_eq_true (List.mem_filter.mp he).2

/-- C6 witness: the exact-ledger equation applied at the Dan-Gun move-4
    inputs, and the no-no-op guarantee applied to its single entry. -/
theorem claim_C6_witness :
    (update_move
        ⟨4, enc "N", enc "-", enc "L-stance", enc "High Observe Punch",
          enc "High Section", []⟩
        ⟨enc "N", enc "-", enc "L-stance", enc "High Obverse Punch",
          enc "High Section"⟩).2 =
      ([⟨4, enc "direction", enc "N", enc "N"⟩,
        ⟨4, enc "movement", enc "-", enc "-"⟩,
        ⟨4, enc "stance", enc "L-stance", enc "L-stance"⟩,
        ⟨4, enc "technique", enc "High Observe Punch", enc "High Obverse Punch"⟩,
        ⟨4, enc "target", enc "High Section", enc "High Section"⟩] :
          List LedgerE).filter (fun e => decide (e.old ≠ e.new)) ∧
    enc "High Observe Punch" ≠ enc "High Obverse Punch" := by
  constructor
  · have h := claim_C6.1
      ⟨4, enc "N", enc "-", enc "L-stance", enc "High Observe Punch",
        enc "High Section", []⟩
      ⟨enc "N", enc "-", enc "L-stance", enc "High Obverse Punch",
        enc "High Section"⟩
    rw [h]
    decide
  · exact claim_C6.2.1
      ⟨4, enc "N", enc "-", enc "L-stance", enc "High Observe Punch",
        enc "High Section", []⟩
      ⟨enc "N", enc "-", enc "L-stance", enc "High Obverse Punch",
        enc "High Section"⟩
      ⟨4, enc "technique", enc "High Observe Punch", enc "High Obverse Punch"⟩
      (by decide)

/-- C7, counterexample: `update_pattern_file` makes zero field changes on
    this document (its correction set is empty, the ledger comes back
    empty), yet the write flag is `true` — the function rewrites the file
    unconditionally, against the claim that no write happens when the
    ledger is empty. -/
theorem claim_C7_counterexample :
    update_pattern_file (enc "Dan-Gun") []
        [⟨enc "Dan-Gun", [⟨1, [], [], [], [], [], []⟩]⟩]
      = ([⟨enc "Dan-Gun", [⟨1, [], [], [], [], [], []⟩]⟩], [], true) := by
  decide

/-- C7 (amended): `fix_terminology_file` and
    `ChonJiDanGunCorrector.apply_corrections` write back only when their
    change ledger is non-empty, and with an empty ledger the document is
    bit-for-bit unchanged; `PatternUpdater.update_pattern_file`, however,
    always rewrites the file — though with an empty ledger the rewritten
    content equals the stored one, so the stored document is unchanged
    even there. -/
theorem claim_C7 :
    (∀ ts : List TermEntry, (fix_terminology_file ts).2 = false →
      (fix_terminology_file ts).1 = ts) ∧
    (∀ doc : List PatternR, (apply_corrections doc).2.1 = [] →
      (apply_corrections doc).2.2 = false ∧ (apply_corrections doc).1 = doc) ∧
    (∀ (pname : Str) (corrs : List (Nat × CorrRow)) (doc : List PatternR),
      (update_pattern_file pname corrs doc).2.2 = true ∧
      ((update_pattern_file pname corrs doc).2.1 = [] →
        (update_pattern_file pname corrs doc).1 = doc)) := by
  refine ⟨fun ts h => fix_terminology_file_noop h, fun doc h => ⟨?_, ?_⟩,
    fun pname corrs doc =>
      ⟨update_pattern_file_writes pname corrs doc, fun h => update_pattern_file_noop h⟩⟩
  · have h2 : (correctPatterns doc).2 = [] := h
    show (!(correctPatterns doc).2.isEmpty) = false
    rw [h2]
    rfl
  · have h2 : (correctPatterns doc).2 = [] := h
    show (correctPatterns doc).1 = doc
    exact correctPatterns_noop h2

/-- C7 witness: the amended statement applied to a one-entry terminology
    file already in canonical casing, and to a pattern document the
    Chon-Ji corrector leaves alone. -/
theorem claim_C7_witness :
    (fix_terminology_file [⟨some (enc "Front Kick"), none⟩]).1
      = [⟨some (enc "Front Kick"), none⟩] ∧
    (apply_corrections [⟨enc "Chon-Ji",
        [⟨1, enc "N", enc "-", enc "Walking Stance", enc "Front Kick",
          enc "Middle Section", []⟩]⟩]).2.2 = false ∧
    (update_pattern_file (enc "Dan-Gun") []
        [⟨enc "Dan-Gun", [⟨1, [], [], [], [], [], []⟩]⟩]).2.2 = true :=
  ⟨claim_C7.1 [⟨some (enc "Front Kick"), none⟩] (by decide),
   (claim_C7.2.1 [⟨enc "Chon-Ji",
      [⟨1, enc "N", enc "-", enc "Walking Stance", enc "Front Kick",
        enc "Middle Section", []⟩]⟩] (by decide)).1,
   (claim_C7.2.2 (enc "Dan-Gun") []
      [⟨enc "Dan-Gun", [⟨1, [], [], [], [], [], []⟩]⟩]).1⟩

/-- C10: the Korean-romanization corrector is change-minimal — a move is
    overwritten only when its English technique is in the mapping and the
    stored romanization differs, and then only the `korean_technique`
    field changes — and idempotent: a second run applies zero corrections
    and returns the identical document. -/
theorem claim_C10 :
    (∀ m : MoveR, koreanMapping.lookup m.technique = none →
      correctKoreanMove m = (m, false)) ∧
    (∀ (m : MoveR) (ck : Str), koreanMapping.lookup m.technique = some ck →
      m.korean_technique = ck → correctKoreanMove m = (m, false)) ∧
    (∀ (m : MoveR) (ck : Str), koreanMapping.lookup m.technique = some ck →
      m.korean_technique ≠ ck →
      correctKoreanMove m = ({ m with korean_technique := ck }, true)) ∧
    (∀ doc : List PatternR,
      correct_korean_romanizations (correct_korean_romanizations doc).1
        = ((correct_korean_romanizations doc).1, 0)) :=
  ⟨fun _ h => correctKoreanMove_none h,
   fun _ _ hl he => correctKoreanMove_keep hl he,
   fun _ _ hl he => correctKoreanMove_set hl he,
   correct_korean_stable⟩

/-- C10 witness: a move with an unmapped technique is untouched; a move
    with `Front Kick` and a stale romanization is rewritten to `Ap Chagi`
    in the `korean_technique` field only. -/
theorem claim_C10_witness :
    correctKoreanMove ⟨1, [], [], [], enc "Jump", [], enc "x"⟩
      = (⟨1, [], [], [], enc "Jump", [], enc "x"⟩, false) ∧
    correctKoreanMove ⟨2, [], [], [], enc "Front Kick", [], enc "Ap Chaji"⟩
      = (⟨2, [], [], [], enc "Front Kick", [], enc "Ap Chagi"⟩, true) :=
  ⟨claim_C10.1 ⟨1, [], [], [], enc "Jump", [], enc "x"⟩ (by decide),
   claim_C10.2.2.1 ⟨2, [], [], [], enc "Front Kick", [], enc "Ap Chaji"⟩
     (enc "Ap Chagi") (by decide) (by decide)⟩

/-! ### Idempotence of `to_title_case`, part A: case operations.

The hyphen pre-pass and every per-token rule only re-case characters in
place.  A `CaseOp` is one per-position casing action; `zipApply` applies a
list of them position-wise.  Where an operation falls on a character is
determined purely by the "shape" of the string (which positions hold word
characters, and the identity of the non-word characters), and shape is
itself invariant under case operations — this is what makes the second
pass retrace the first. -/

inductive CaseOp : Type where
  | up
  | low
  | keep
deriving DecidableEq

/-- Apply one case operation to one code point. -/
def appOp : CaseOp → Nat → Nat
  | .up, n => toUpperCp n
  | .low, n => toLowerCp n
  | .keep, n => n

/-- Apply a list of case operations position-wise (trailing characters of
    either list are kept). -/
def zipApply : List CaseOp → Str → Str
  | _, [] => []
  | [], s => s
  | o :: os, c :: cs => appOp o c :: zipApply os cs

/-- ASCII letter. -/
def isLetterCp (n : Nat) : Bool := (65 ≤ n && n ≤ 90) || (97 ≤ n && n ≤ 122)

theorem bool_ext {a b : Bool} (h : a = true ↔ b = true) : a = b := by
  cases a <;> cases b <;> simp_all

theorem appOp_nonletter (o : CaseOp) {n : Nat} (h : isLetterCp n = false) :
    appOp o n = n := by
  simp only [isLetterCp, Bool.or_eq_false_iff, Bool.and_eq_false_iff,
    decide_eq_false_iff_not] at h
  cases o with
  | keep => rfl
  | up =>
    simp only [appOp, toUpperCp]
    split_ifs with hc
    · simp only [Bool.and_eq_true, decide_eq_true_eq] at hc
      omega
    · rfl
  | low =>
    simp only [appOp, toLowerCp]
    split_ifs with hc
    · simp only [Bool.and_eq_true, decide_eq_true_eq] at hc
      omega
    · rfl

theorem isLetter_appOp (o : CaseOp) (n : Nat) :
    isLetterCp (appOp o n) = isLetterCp n := by
  cases o with
  | keep => rfl
  | up =>
    simp only [appOp, toUpperCp]
    split_ifs with hc
    · simp only [Bool.and_eq_true, decide_eq_true_eq] at hc
      refine bool_ext ?_
      simp only [isLetterCp, Bool.or_eq_true, Bool.and_eq_true, decide_eq_true_eq]
      omega
    · rfl
  | low =>
    simp only [appOp, toLowerCp]
    split_ifs with hc
    · simp only [Bool.and_eq_true, decide_eq_true_eq] at hc
      refine bool_ext ?_
      simp only [isLetterCp, Bool.or_eq_true, Bool.and_eq_true, decide_eq_true_eq]
      omega
    · rfl

theorem isW_appOp (o : CaseOp) (n : Nat) : isW (appOp o n) = isW n := by
  cases o with
  | keep => rfl
  | up =>
    simp only [appOp, toUpperCp]
    split_ifs with hc
    · simp only [Bool.and_eq_true, decide_eq_true_eq] at hc
      refine bool_ext ?_
      simp only [isW, Bool.or_eq_true, Bool.and_eq_true, decide_eq_true_eq,
        beq_iff_eq]
      omega
    · rfl
  | low =>
    simp only [appOp, toLowerCp]
    split_ifs with hc
    · simp only [Bool.and_eq_true, decide_eq_true_eq] at hc
      refine bool_ext ?_
      simp only [isW, Bool.or_eq_true, Bool.and_eq_true, decide_eq_true_eq,
        beq_iff_eq]
      omega
    · rfl

theorem appOp_idem (o : CaseOp) (n : Nat) : appOp o (appOp o n) = appOp o n := by
  cases o <;> simp only [appOp, toUpperCp, toLowerCp] <;> split_ifs with h1 h2 <;>
    simp only [Bool.and_eq_true, decide_eq_true_eq, Bool.and_eq_false_iff,
      decide_eq_false_iff_not] at * <;> omega

theorem appOp_triple (p q : CaseOp) {n : Nat} (h : appOp q n = n) :
    appOp p (appOp q (appOp p n)) = appOp p n := by
  cases p <;> cases q <;> simp only [appOp, toUpperCp, toLowerCp] at h ⊢ <;>
    split_ifs at h ⊢ <;>
    simp only [Bool.and_eq_true, decide_eq_true_eq, Bool.and_eq_false_iff,
      decide_eq_false_iff_not] at * <;> omega

theorem appOp_eq_iff (o : CaseOp) {n k : Nat} (hk : isLetterCp k = false) :
    appOp o n = k ↔ n = k := by
  constructor
  · intro h
    have hn : isLetterCp n = false := by
      rw [← isLetter_appOp o n, h]
      exact hk
    rw [appOp_nonletter o hn] at h
    exact h
  · rintro rfl
    exact appOp_nonletter o hk

theorem length_zipApply (σ : List CaseOp) (s : Str) :
    (zipApply σ s).length = s.length := by
  induction σ generalizing s with
  | nil => cases s <;> rfl
  | cons o os ih =>
    cases s with
    | nil => rfl
    | cons c cs => simp [zipApply, ih]

theorem zipApply_nil (s : Str) : zipApply [] s = s := by
  cases s <;> rfl

theorem zipApply_append {σ₁ : List CaseOp} {x : Str} (σ₂ : List CaseOp) (y : Str)
    (h : σ₁.length = x.length) :
    zipApply (σ₁ ++ σ₂) (x ++ y) = zipApply σ₁ x ++ zipApply σ₂ y := by
  induction σ₁ generalizing x with
  | nil =>
    cases x with
    | nil => simp [zipApply_nil]
    | cons c cs => cases h
  | cons o os ih =>
    cases x with
    | nil => cases h
    | cons c cs =>
      show appOp o c :: zipApply (os ++ σ₂) (cs ++ y)
        = appOp o c :: (zipApply os cs ++ zipApply σ₂ y)
      rw [ih (show os.length = cs.length from by simpa using h)]

theorem zipApply_idem (σ : List CaseOp) (s : Str) :
    zipApply σ (zipApply σ s) = zipApply σ s := by
  induction σ generalizing s with
  | nil => rw [zipApply_nil]
  | cons o os ih =>
    cases s with
    | nil => rfl
    | cons c cs => simp [zipApply, appOp_idem, ih]

theorem zipApply_triple (π σ : List CaseOp) {s : Str}
    (h : zipApply σ s = s) :
    zipApply π (zipApply σ (zipApply π s)) = zipApply π s := by
  induction s generalizing π σ with
  | nil =>
    cases π <;> cases σ <;> rfl
  | cons c cs ih =>
    cases π with
    | nil =>
      simp only [zipApply_nil]
      exact h
    | cons p ps =>
      cases σ with
      | nil =>
        simp only [zipApply_nil]
        exact zipApply_idem _ _
      | cons q qs =>
        simp only [zipApply] at h ⊢
        have h1 : appOp q c = c := (List.cons.injEq _ _ _ _).mp h |>.1
        have h2 : zipApply qs cs = cs := (List.cons.injEq _ _ _ _).mp h |>.2
        rw [appOp_triple p q h1, ih ps qs h2]

/-- The per-position shape relation: word-character-ness agrees, and
    non-word characters are equal. -/
def shapeR (a b : Nat) : Prop := isW a = isW b ∧ (isW a = false → a = b)

/-- Two strings have the same shape when they agree position-wise up to
    re-casing of letters. -/
def shapeEq (s t : Str) : Prop := List.Forall₂ shapeR s t

theorem shapeR_refl (a : Nat) : shapeR a a := ⟨rfl, fun _ => rfl⟩

theorem shapeEq_refl (s : Str) : shapeEq s s :=
  List.forall₂_same.mpr (fun a _ => shapeR_refl a)

theorem isLetterCp_false_of_isW {n : Nat} (h : isW n = false) :
    isLetterCp n = false := by
  simp only [isW, Bool.or_eq_false_iff] at h
  simp only [isLetterCp, Bool.or_eq_false_iff]
  exact ⟨h.1.1.1, h.1.1.2⟩

theorem shapeR_appOp (o : CaseOp) (c : Nat) : shapeR (appOp o c) c := by
  refine ⟨isW_appOp o c, fun h => ?_⟩
  rw [isW_appOp] at h
  exact appOp_nonletter o (isLetterCp_false_of_isW h)

theorem shapeEq_zipApply (σ : List CaseOp) (s : Str) :
    shapeEq (zipApply σ s) s := by
  induction σ generalizing s with
  | nil => rw [zipApply_nil]; exact shapeEq_refl s
  | cons o os ih =>
    cases s with
    | nil => exact List.Forall₂.nil
    | cons c cs => exact List.Forall₂.cons (shapeR_appOp o c) (ih cs)

theorem shapeEq_length {s t : Str} (h : shapeEq s t) : s.length = t.length :=
  List.Forall₂.length_eq h

/-! ### Idempotence of `to_title_case`, part B: the hyphen pass as case
    operations. -/

/-- The case-operation list of `capitalizeStr`. -/
def capOps : Str → List CaseOp
  | [] => []
  | _ :: cs => CaseOp.up :: cs.map (fun _ => CaseOp.low)

theorem capOps_length (s : Str) : (capOps s).length = s.length := by
  cases s <;> simp [capOps]

theorem zipApply_constOps (o : CaseOp) (s : Str) :
    zipApply (s.map (fun _ => o)) s = s.map (appOp o) := by
  induction s with
  | nil => rfl
  | cons c cs ih =>
    show appOp o c :: zipApply (cs.map (fun _ => o)) cs = appOp o c :: cs.map (appOp o)
    rw [ih]

theorem zipApply_capOps (s : Str) : zipApply (capOps s) s = capitalizeStr s := by
  cases s with
  | nil => rfl
  | cons c cs =>
    show appOp .up c :: zipApply (cs.map (fun _ => CaseOp.low)) cs = _
    rw [zipApply_constOps]
    rfl

theorem capOps_congr {s t : Str} (h : s.length = t.length) : capOps s = capOps t := by
  cases s with
  | nil => cases t with
    | nil => rfl
    | cons c cs => cases h
  | cons c cs =>
    cases t with
    | nil => cases h
    | cons e es =>
      simp only [capOps, List.cons.injEq, true_and]
      have h2 : cs.length = es.length := by simpa using h
      clear h
      induction cs generalizing es with
      | nil => cases es with
        | nil => rfl
        | cons f fs => cases h2
      | cons f fs ih =>
        cases es with
        | nil => cases h2
        | cons g gs =>
          simp [ih gs (show fs.length = gs.length from by simpa using h2)]

/-- The case-operation list of one `hyphGo` pass: `keep` outside matches,
    `capOps` on the two runs of each match. -/
def hyphOpsGo : Nat → Bool → Str → List CaseOp
  | _, _, [] => []
  | 0, _, s => s.map (fun _ => CaseOp.keep)
  | fuel + 1, prevW, c :: cs =>
    if !prevW && isW c then
      match matchTail ((c :: cs).dropWhile isW) with
      | some (r2, t3) =>
        capOps ((c :: cs).takeWhile isW) ++ CaseOp.keep ::
          capOps r2 ++ hyphOpsGo fuel true t3
      | none => CaseOp.keep :: hyphOpsGo fuel true cs
    else CaseOp.keep :: hyphOpsGo fuel (isW c) cs

theorem matchTail_cons_some {r : Str} {d : Nat} {t2 : Str}
    (hw : isW d = true) (hr : r = 45 :: d :: t2) :
    matchTail r = some ((d :: t2).takeWhile isW, (d :: t2).dropWhile isW) := by
  subst hr
  simp [matchTail, hw]

theorem matchTail_some {r : Str} {r2 t3 : Str}
    (h : matchTail r = some (r2, t3)) :
    ∃ d t2, r = 45 :: d :: t2 ∧ isW d = true ∧
      r2 = (d :: t2).takeWhile isW ∧ t3 = (d :: t2).dropWhile isW := by
  cases r with
  | nil => cases h
  | cons e rest =>
    simp only [matchTail] at h
    by_cases he : e = 45
    · rw [if_pos he] at h
      cases rest with
      | nil => cases h
      | cons d t2 =>
        have h2 : (if isW d = true then
            some ((d :: t2).takeWhile isW, (d :: t2).dropWhile isW)
          else none) = some (r2, t3) := h
        by_cases hw : isW d = true
        · rw [if_pos hw] at h2
          injection h2 with h3
          injection h3 with ha hb
          exact ⟨d, t2, by rw [he], hw, ha.symm, hb.symm⟩
        · rw [if_neg hw] at h2
          cases h2
    · rw [if_neg he] at h
      cases h

theorem matchTail_mem45 {r : Str} {r2 t3 : Str}
    (h : matchTail r = some (r2, t3)) : (45 : Nat) ∈ r := by
  rcases matchTail_some h with ⟨d, t2, rfl, _, _, _⟩
  simp

theorem mapConst_congr {α : Type} {x y : List α} (o : CaseOp)
    (h : x.length = y.length) :
    x.map (fun _ => o) = y.map (fun _ => o) := by
  induction x generalizing y with
  | nil => cases y with
    | nil => rfl
    | cons b bs => cases h
  | cons a as ih =>
    cases y with
    | nil => cases h
    | cons b bs =>
      simp only [List.map_cons, List.cons.injEq, true_and]
      exact ih (by simpa using h)

theorem map_appOp_keep (s : Str) : s.map (appOp CaseOp.keep) = s := by
  induction s with
  | nil => rfl
  | cons c cs ih => simp [appOp, ih]

theorem zipApply_keep (s : Str) :
    zipApply (s.map (fun _ => CaseOp.keep)) s = s := by
  rw [zipApply_constOps, map_appOp_keep]

theorem isW45 : isW 45 = false := by decide

theorem isW_of_space {c : Nat} (h : isSpaceCp c = true) : isW c = false := by
  simp only [isSpaceCp, Bool.or_eq_true, beq_iff_eq] at h
  rcases h with ((((h | h) | h) | h) | h) | h <;> subst h <;> decide

theorem space_ne45 {c : Nat} (h : isSpaceCp c = true) : c ≠ 45 := by
  intro hc
  subst hc
  exact absurd h (by decide)

theorem isW_not_space {a : Nat} (h : isW a = true) : isSpaceCp a = false := by
  simp only [isW, Bool.or_eq_true, Bool.and_eq_true, decide_eq_true_eq,
    beq_iff_eq] at h
  simp only [isSpaceCp, Bool.or_eq_false_iff, beq_eq_false_iff_ne, ne_eq]
  omega

theorem takeWhile_sep {q : Nat → Bool} {d : Nat} (hd : q d = false)
    (x y : Str) : (x ++ d :: y).takeWhile q = x.takeWhile q := by
  induction x with
  | nil => simp [List.takeWhile_cons, hd]
  | cons a as ih =>
    by_cases ha : q a = true
    · simp [List.takeWhile_cons, ha, ih]
    · simp [List.takeWhile_cons, ha]

theorem dropWhile_sep {q : Nat → Bool} {d : Nat} (hd : q d = false)
    (x y : Str) : (x ++ d :: y).dropWhile q = x.dropWhile q ++ d :: y := by
  induction x with
  | nil => simp [List.dropWhile_cons, hd]
  | cons a as ih =>
    by_cases ha : q a = true
    · simp [List.dropWhile_cons, ha, ih]
    · simp [List.dropWhile_cons, ha]

theorem matchTail_sep {d : Nat} (hw : isW d = false) (h45 : d ≠ 45)
    (v rest : Str) :
    matchTail (v ++ d :: rest) =
      (matchTail v).map (fun pr => (pr.1, pr.2 ++ d :: rest)) := by
  cases v with
  | nil =>
    simp only [List.nil_append, matchTail]
    rw [if_neg h45]
    rfl
  | cons e v2 =>
    by_cases he : e = 45
    · subst he
      cases v2 with
      | nil => simp [matchTail, hw]
      | cons f v3 =>
        simp only [List.cons_append, matchTail, if_pos (rfl : (45 : Nat) = 45),
          if_true]
        by_cases hf : isW f = true
        · rw [if_pos hf, if_pos hf]
          simp only [Option.map_some']
          simp only [← List.cons_append]
          rw [takeWhile_sep hw, dropWhile_sep hw]
        · rw [if_neg hf, if_neg hf]
          rfl
    · simp [matchTail, he]

theorem hyph_decomp {c : Nat} {cs r2 t3 : Str}
    (h : matchTail ((c :: cs).dropWhile isW) = some (r2, t3)) :
    c :: cs = (c :: cs).takeWhile isW ++ 45 :: (r2 ++ t3) ∧
      r2 ≠ [] ∧ t3.length ≤ cs.length := by
  rcases matchTail_some h with ⟨dd, t2, hdw, hwdd, hr2, ht3⟩
  have h1 : (c :: cs).takeWhile isW ++ (c :: cs).dropWhile isW = c :: cs :=
    List.takeWhile_append_dropWhile isW (c :: cs)
  have h2 : r2 ++ t3 = dd :: t2 := by
    rw [hr2, ht3]
    exact List.takeWhile_append_dropWhile isW (dd :: t2)
  have hdec : c :: cs = (c :: cs).takeWhile isW ++ 45 :: (r2 ++ t3) := by
    rw [h2, ← hdw, h1]
  have hr2ne : r2 ≠ [] := by
    rw [hr2]
    simp [List.takeWhile_cons, hwdd]
  refine ⟨hdec, hr2ne, ?_⟩
  have hlen := congrArg List.length hdec
  simp only [List.length_cons, List.length_append] at hlen
  have hpos : 1 ≤ r2.length := List.length_pos.mpr hr2ne
  omega

theorem hyphGo_nil (fuel : Nat) (p : Bool) : hyphGo fuel p [] = [] := by
  cases fuel <;> rfl

theorem hyphGo_zero (p : Bool) (s : Str) : hyphGo 0 p s = s := by
  cases s <;> rfl

theorem hyphGo_skip {p : Bool} {c : Nat} (fuel : Nat) (cs : Str)
    (hc : (!p && isW c) = false) :
    hyphGo (fuel + 1) p (c :: cs) = c :: hyphGo fuel (isW c) cs := by
  simp [hyphGo, hc]

theorem hyphGo_hit_none {p : Bool} {c : Nat} (fuel : Nat) (cs : Str)
    (hc : (!p && isW c) = true)
    (hm : matchTail ((c :: cs).dropWhile isW) = none) :
    hyphGo (fuel + 1) p (c :: cs) = c :: hyphGo fuel true cs := by
  simp [hyphGo, hc, hm]

theorem hyphGo_hit_some {p : Bool} {c : Nat} {r2 t3 : Str} (fuel : Nat) (cs : Str)
    (hc : (!p && isW c) = true)
    (hm : matchTail ((c :: cs).dropWhile isW) = some (r2, t3)) :
    hyphGo (fuel + 1) p (c :: cs) =
      capitalizeStr ((c :: cs).takeWhile isW) ++ 45 ::
        (capitalizeStr r2 ++ hyphGo fuel true t3) := by
  simp [hyphGo, hc, hm]

theorem hyphOpsGo_nil (fuel : Nat) (p : Bool) : hyphOpsGo fuel p [] = [] := by
  cases fuel <;> rfl

theorem hyphOpsGo_zero (p : Bool) (s : Str) :
    hyphOpsGo 0 p s = s.map (fun _ => CaseOp.keep) := by
  cases s <;> rfl

theorem hyphOpsGo_skip {p : Bool} {c : Nat} (fuel : Nat) (cs : Str)
    (hc : (!p && isW c) = false) :
    hyphOpsGo (fuel + 1) p (c :: cs) = CaseOp.keep :: hyphOpsGo fuel (isW c) cs := by
  simp [hyphOpsGo, hc]

theorem hyphOpsGo_hit_none {p : Bool} {c : Nat} (fuel : Nat) (cs : Str)
    (hc : (!p && isW c) = true)
    (hm : matchTail ((c :: cs).dropWhile isW) = none) :
    hyphOpsGo (fuel + 1) p (c :: cs) = CaseOp.keep :: hyphOpsGo fuel true cs := by
  simp [hyphOpsGo, hc, hm]

theorem hyphOpsGo_hit_some {p : Bool} {c : Nat} {r2 t3 : Str} (fuel : Nat) (cs : Str)
    (hc : (!p && isW c) = true)
    (hm : matchTail ((c :: cs).dropWhile isW) = some (r2, t3)) :
    hyphOpsGo (fuel + 1) p (c :: cs) =
      capOps ((c :: cs).takeWhile isW) ++ CaseOp.keep ::
        (capOps r2 ++ hyphOpsGo fuel true t3) := by
  simp [hyphOpsGo, hc, hm]

theorem splitGo_nil (fuel : Nat) : splitGo fuel [] = [] := by
  cases fuel <;> rfl

theorem splitGo_space {c : Nat} (fuel : Nat) (cs : Str) (hc : isSpaceCp c = true) :
    splitGo (fuel + 1) (c :: cs) = splitGo fuel cs := by
  simp [splitGo, hc]

theorem splitGo_tok {c : Nat} (fuel : Nat) (cs : Str) (hc : isSpaceCp c = false) :
    splitGo (fuel + 1) (c :: cs) =
      (c :: cs.takeWhile (fun d => !isSpaceCp d)) ::
        splitGo fuel (cs.dropWhile (fun d => !isSpaceCp d)) := by
  simp [splitGo, hc]

theorem hyphGo_fuel : ∀ f1 f2 (p : Bool) (s : Str), s.length ≤ f1 →
    s.length ≤ f2 → hyphGo f1 p s = hyphGo f2 p s := by
  intro f1
  induction f1 with
  | zero =>
    intro f2 p s h1 h2
    have hs : s = [] := List.eq_nil_of_length_eq_zero (Nat.le_zero.mp h1)
    subst hs
    rw [hyphGo_nil, hyphGo_nil]
  | succ f ih =>
    intro f2 p s h1 h2
    cases s with
    | nil => rw [hyphGo_nil, hyphGo_nil]
    | cons c cs =>
      cases f2 with
      | zero => simp at h2
      | succ g =>
        have hl1 : cs.length + 1 ≤ f + 1 := by simpa using h1
        have hl2 : cs.length + 1 ≤ g + 1 := by simpa using h2
        by_cases hc : (!p && isW c) = true
        · cases hm : matchTail ((c :: cs).dropWhile isW) with
          | none =>
            rw [hyphGo_hit_none f cs hc hm, hyphGo_hit_none g cs hc hm]
            rw [ih g true cs (by omega) (by omega)]
          | some pr =>
            obtain ⟨r2, t3⟩ := pr
            obtain ⟨hdec, hr2ne, ht3⟩ := hyph_decomp hm
            rw [hyphGo_hit_some f cs hc hm, hyphGo_hit_some g cs hc hm]
            rw [ih g true t3 (by omega) (by omega)]
        · have hc' : (!p && isW c) = false := by simpa using hc
          rw [hyphGo_skip f cs hc', hyphGo_skip g cs hc']
          rw [ih g (isW c) cs (by omega) (by omega)]

theorem hyphGo_rep : ∀ fuel (p : Bool) (s : Str),
    hyphGo fuel p s = zipApply (hyphOpsGo fuel p s) s := by
  intro fuel
  induction fuel with
  | zero =>
    intro p s
    rw [hyphGo_zero, hyphOpsGo_zero, zipApply_keep]
  | succ f ih =>
    intro p s
    cases s with
    | nil =>
      rw [hyphGo_nil, hyphOpsGo_nil]
      rfl
    | cons c cs =>
      by_cases hc : (!p && isW c) = true
      · cases hm : matchTail ((c :: cs).dropWhile isW) with
        | none =>
          rw [hyphGo_hit_none f cs hc hm, hyphOpsGo_hit_none f cs hc hm]
          show c :: hyphGo f true cs
            = appOp CaseOp.keep c :: zipApply (hyphOpsGo f true cs) cs
          rw [← ih true cs]
          rfl
        | some pr =>
          obtain ⟨r2, t3⟩ := pr
          obtain ⟨hdec, hr2ne, ht3⟩ := hyph_decomp hm
          rw [hyphGo_hit_some f cs hc hm, hyphOpsGo_hit_some f cs hc hm]
          generalize hA : (c :: cs).takeWhile isW = A at hdec ⊢
          conv_rhs => rw [hdec]
          rw [zipApply_append _ _ (capOps_length _), zipApply_capOps]
          congr 1
          show 45 :: (capitalizeStr r2 ++ hyphGo f true t3)
            = appOp CaseOp.keep 45 ::
                zipApply (capOps r2 ++ hyphOpsGo f true t3) (r2 ++ t3)
          rw [zipApply_append _ _ (capOps_length _), zipApply_capOps, ← ih true t3]
          rfl
      · have hc' : (!p && isW c) = false := by simpa using hc
        rw [hyphGo_skip f cs hc', hyphOpsGo_skip f cs hc']
        show c :: hyphGo f (isW c) cs
          = appOp CaseOp.keep c :: zipApply (hyphOpsGo f (isW c) cs) cs
        rw [← ih (isW c) cs]
        rfl

theorem shapeEq_tw_dw {s t : Str} (h : shapeEq s t) :
    (s.takeWhile isW).length = (t.takeWhile isW).length ∧
      shapeEq (s.dropWhile isW) (t.dropWhile isW) := by
  induction h with
  | nil => exact ⟨rfl, List.Forall₂.nil⟩
  | @cons a b as bs hab hrest ih =>
    by_cases hw : isW a = true
    · have hwb : isW b = true := by rw [← hab.1]; exact hw
      constructor
      · simp [List.takeWhile_cons, hw, hwb, ih.1]
      · simpa [List.dropWhile_cons, hw, hwb] using ih.2
    · have hw' : isW a = false := by simpa using hw
      have hwb : isW b = false := by rw [← hab.1]; exact hw'
      constructor
      · simp [List.takeWhile_cons, hw', hwb]
      · have e1 : (a :: as).dropWhile isW = a :: as := by
          simp [List.dropWhile_cons, hw']
        have e2 : (b :: bs).dropWhile isW = b :: bs := by
          simp [List.dropWhile_cons, hwb]
        rw [e1, e2]
        exact List.Forall₂.cons hab hrest

theorem matchTail_shape {v v2 : Str} (h : shapeEq v v2) :
    (matchTail v = none ∧ matchTail v2 = none) ∨
      ∃ r2 t3 r2b t3b, matchTail v = some (r2, t3) ∧
        matchTail v2 = some (r2b, t3b) ∧
        r2.length = r2b.length ∧ shapeEq t3 t3b := by
  cases h with
  | nil => exact Or.inl ⟨rfl, rfl⟩
  | @cons e eb r rb heb hrest =>
    by_cases he : e = 45
    · subst he
      have heb45 : eb = 45 := by
        have h45 : isW (45 : Nat) = false := by decide
        exact (heb.2 h45).symm
      subst heb45
      cases hrest with
      | nil => exact Or.inl ⟨rfl, rfl⟩
      | @cons d db t2 t2b hdb ht2 =>
        by_cases hd : isW d = true
        · have hdb' : isW db = true := by rw [← hdb.1]; exact hd
          refine Or.inr ⟨_, _, _, _, matchTail_cons_some hd rfl,
            matchTail_cons_some hdb' rfl, ?_, ?_⟩
          · exact (shapeEq_tw_dw (List.Forall₂.cons hdb ht2)).1
          · exact (shapeEq_tw_dw (List.Forall₂.cons hdb ht2)).2
        · have hd' : isW d = false := by simpa using hd
          have hdb' : isW db = false := by rw [← hdb.1]; exact hd'
          refine Or.inl ⟨?_, ?_⟩ <;> simp [matchTail, hd', hdb']
    · have heb' : ¬ eb = 45 := by
        intro hbe
        subst hbe
        have hiw : isW e = false := by rw [heb.1]; decide
        exact he (heb.2 hiw)
      refine Or.inl ⟨?_, ?_⟩ <;> simp [matchTail, he, heb']

theorem hyphOpsGo_shape : ∀ fuel (p : Bool) {s t : Str}, shapeEq s t →
    hyphOpsGo fuel p s = hyphOpsGo fuel p t := by
  intro fuel
  induction fuel with
  | zero =>
    intro p s t h
    rw [hyphOpsGo_zero, hyphOpsGo_zero]
    exact mapConst_congr _ (shapeEq_length h)
  | succ f ih =>
    intro p s t h
    cases h with
    | nil => rfl
    | @cons a b as bs hab hrest =>
      have hiw : isW a = isW b := hab.1
      by_cases hc : (!p && isW a) = true
      · have hcb : (!p && isW b) = true := by rw [← hiw]; exact hc
        have hsh : shapeEq ((a :: as).dropWhile isW) ((b :: bs).dropWhile isW) :=
          (shapeEq_tw_dw (List.Forall₂.cons hab hrest)).2
        rcases matchTail_shape hsh with ⟨hm1, hm2⟩ |
          ⟨r2, t3, r2b, t3b, hm1, hm2, hlen, hsh3⟩
        · rw [hyphOpsGo_hit_none f as hc hm1, hyphOpsGo_hit_none f bs hcb hm2,
            ih true hrest]
        · rw [hyphOpsGo_hit_some f as hc hm1, hyphOpsGo_hit_some f bs hcb hm2]
          rw [capOps_congr (shapeEq_tw_dw (List.Forall₂.cons hab hrest)).1]
          rw [capOps_congr hlen, ih true hsh3]
      · have hc' : (!p && isW a) = false := by simpa using hc
        have hcb : (!p && isW b) = false := by rw [← hiw]; exact hc'
        rw [hyphOpsGo_skip f as hc', hyphOpsGo_skip f bs hcb, hiw,
          ih (isW b) hrest]

theorem hyphenPass_rep (s : Str) :
    hyphenPass s = zipApply (hyphOpsGo s.length false s) s :=
  hyphGo_rep s.length false s

theorem length_hyphenPass (s : Str) : (hyphenPass s).length = s.length := by
  rw [hyphenPass_rep]
  exact length_zipApply _ _

theorem shapeEq_hyphenPass (s : Str) : shapeEq (hyphenPass s) s := by
  rw [hyphenPass_rep]
  exact shapeEq_zipApply _ _

theorem hyphenPass_idem (s : Str) : hyphenPass (hyphenPass s) = hyphenPass s := by
  have hlen : (hyphenPass s).length = s.length := length_hyphenPass s
  show hyphGo (hyphenPass s).length false (hyphenPass s) = hyphenPass s
  rw [hlen, hyphGo_rep s.length false (hyphenPass s),
    hyphOpsGo_shape s.length false (shapeEq_hyphenPass s)]
  conv_lhs => rw [hyphenPass_rep s]
  rw [zipApply_idem]
  exact (hyphenPass_rep s).symm

theorem hyphGo_no45 : ∀ fuel (p : Bool) (s : Str), (45 : Nat) ∉ s →
    hyphGo fuel p s = s := by
  intro fuel
  induction fuel with
  | zero => intro p s _; exact hyphGo_zero p s
  | succ f ih =>
    intro p s h
    cases s with
    | nil => exact hyphGo_nil _ _
    | cons c cs =>
      have hcs : (45 : Nat) ∉ cs := fun hx => h (List.mem_cons_of_mem c hx)
      by_cases hc : (!p && isW c) = true
      · cases hm : matchTail ((c :: cs).dropWhile isW) with
        | none => rw [hyphGo_hit_none f cs hc hm, ih true cs hcs]
        | some pr =>
          obtain ⟨r2, t3⟩ := pr
          exact absurd ((List.dropWhile_sublist _).mem (matchTail_mem45 hm)) h
      · have hc' : (!p && isW c) = false := by simpa using hc
        rw [hyphGo_skip f cs hc', ih (isW c) cs hcs]

theorem hyphenPass_no45 {s : Str} (h : (45 : Nat) ∉ s) : hyphenPass s = s :=
  hyphGo_no45 s.length false s h

theorem mem_zipApply {n : Nat} (hn : isLetterCp n = false) (τ : List CaseOp)
    (s : Str) : n ∈ zipApply τ s ↔ n ∈ s := by
  induction τ generalizing s with
  | nil => rw [zipApply_nil]
  | cons o os ih =>
    cases s with
    | nil => rfl
    | cons c cs =>
      show n ∈ appOp o c :: zipApply os cs ↔ _
      simp only [List.mem_cons]
      constructor
      · rintro (h | h)
        · exact Or.inl ((appOp_eq_iff o hn).mp h.symm).symm
        · exact Or.inr ((ih cs).mp h)
      · rintro (h | h)
        · exact Or.inl ((appOp_eq_iff o hn).mpr h.symm).symm
        · exact Or.inr ((ih cs).mpr h)

theorem idxOf_zipApply {n : Nat} (hn : isLetterCp n = false) (τ : List CaseOp)
    (s : Str) : idxOf n (zipApply τ s) = idxOf n s := by
  induction τ generalizing s with
  | nil => rw [zipApply_nil]
  | cons o os ih =>
    cases s with
    | nil => rfl
    | cons c cs =>
      show idxOf n (appOp o c :: zipApply os cs) = idxOf n (c :: cs)
      by_cases hc : c = n
      · have h2 : appOp o c = n := (appOp_eq_iff o hn).mpr hc
        simp [idxOf, h2, hc, appOp_nonletter o hn]
      · have h2 : ¬ appOp o c = n := fun hx => hc ((appOp_eq_iff o hn).mp hx)
        simp [idxOf, h2, hc, ih cs]

theorem nospace_of_shapeEq {s t : Str} (h : shapeEq s t)
    (ht : ∀ c ∈ t, isSpaceCp c = false) : ∀ c ∈ s, isSpaceCp c = false := by
  induction h with
  | nil => intro c hc; cases hc
  | @cons a b as bs hab hrest ih =>
    intro c hc
    rcases List.mem_cons.mp hc with rfl | hc2
    · by_cases hw : isW c = true
      · exact isW_not_space hw
      · have hw' : isW c = false := by simpa using hw
        rw [hab.2 hw']
        exact ht b (List.mem_cons_self b bs)
    · exact ih (fun d hd => ht d (List.mem_cons_of_mem b hd)) c hc2

theorem splitGo_fuel : ∀ f1 f2 (s : Str), s.length ≤ f1 → s.length ≤ f2 →
    splitGo f1 s = splitGo f2 s := by
  intro f1
  induction f1 with
  | zero =>
    intro f2 s h1 h2
    have hs : s = [] := List.eq_nil_of_length_eq_zero (Nat.le_zero.mp h1)
    subst hs
    rw [splitGo_nil, splitGo_nil]
  | succ f ih =>
    intro f2 s h1 h2
    cases s with
    | nil => rw [splitGo_nil, splitGo_nil]
    | cons c cs =>
      cases f2 with
      | zero => simp at h2
      | succ g =>
        have hl1 : cs.length + 1 ≤ f + 1 := by simpa using h1
        have hl2 : cs.length + 1 ≤ g + 1 := by simpa using h2
        by_cases hc : isSpaceCp c = true
        · rw [splitGo_space f cs hc, splitGo_space g cs hc]
          exact ih g cs (by omega) (by omega)
        · have hc' : isSpaceCp c = false := by simpa using hc
          rw [splitGo_tok f cs hc', splitGo_tok g cs hc']
          have hd : (cs.dropWhile (fun d => !isSpaceCp d)).length ≤ cs.length :=
            (List.dropWhile_sublist _).length_le
          rw [ih g _ (by omega) (by omega)]

theorem splitGo_sep {d : Nat} (hd : isSpaceCp d = true) {w : Str} (hw : w ≠ [])
    (hns : ∀ c ∈ w, isSpaceCp c = false) (r : Str) :
    ∀ fuel, (w ++ d :: r).length ≤ fuel →
      splitGo fuel (w ++ d :: r) = w :: splitGo r.length r := by
  intro fuel hf
  cases w with
  | nil => exact absurd rfl hw
  | cons c cs =>
    have hlen : cs.length + 1 + (1 + r.length) ≤ fuel := by
      have h0 := hf
      simp [List.length_append] at h0
      omega
    cases fuel with
    | zero => omega
    | succ f =>
      have hc : isSpaceCp c = false := hns c (List.mem_cons_self c cs)
      rw [List.cons_append, splitGo_tok f _ hc]
      have hq : (fun x => !isSpaceCp x) d = false := by simp [hd]
      rw [takeWhile_sep hq, dropWhile_sep hq]
      have htw : cs.takeWhile (fun x => !isSpaceCp x) = cs :=
        List.takeWhile_eq_self_iff.mpr (fun a ha => by
          simp [hns a (List.mem_cons_of_mem c ha)])
      have hdw : cs.dropWhile (fun x => !isSpaceCp x) = [] :=
        List.dropWhile_eq_nil_iff.mpr (fun a ha => by
          simp [hns a (List.mem_cons_of_mem c ha)])
      rw [htw, hdw, List.nil_append]
      cases f with
      | zero => omega
      | succ f2 =>
        rw [splitGo_space f2 r hd,
          splitGo_fuel f2 r.length r (by omega) (le_refl _)]

theorem splitWs_single {w : Str} (hw : w ≠ [])
    (hns : ∀ c ∈ w, isSpaceCp c = false) : splitWs w = [w] := by
  cases w with
  | nil => exact absurd rfl hw
  | cons c cs =>
    show splitGo (cs.length + 1) (c :: cs) = [c :: cs]
    rw [splitGo_tok cs.length cs (hns c (List.mem_cons_self c cs))]
    have htw : cs.takeWhile (fun x => !isSpaceCp x) = cs :=
      List.takeWhile_eq_self_iff.mpr (fun a ha => by
        simp [hns a (List.mem_cons_of_mem c ha)])
    have hdw : cs.dropWhile (fun x => !isSpaceCp x) = [] :=
      List.dropWhile_eq_nil_iff.mpr (fun a ha => by
        simp [hns a (List.mem_cons_of_mem c ha)])
    rw [htw, hdw, splitGo_nil]

theorem joinSpace_split : ∀ rs : List Str,
    (∀ r ∈ rs, r ≠ [] ∧ ∀ c ∈ r, isSpaceCp c = false) →
    splitWs (joinSpace rs) = rs := by
  intro rs
  induction rs with
  | nil => intro _; rfl
  | cons w ws ih =>
    intro h
    cases ws with
    | nil =>
      have hw := h w (List.mem_cons_self w [])
      exact splitWs_single hw.1 hw.2
    | cons w2 ws2 =>
      have hj : joinSpace (w :: w2 :: ws2) = w ++ 32 :: joinSpace (w2 :: ws2) := rfl
      rw [hj]
      have hw := h w (List.mem_cons_self w _)
      rw [show splitWs (w ++ 32 :: joinSpace (w2 :: ws2))
          = splitGo (w ++ 32 :: joinSpace (w2 :: ws2)).length
            (w ++ 32 :: joinSpace (w2 :: ws2)) from rfl]
      rw [splitGo_sep (by decide) hw.1 hw.2 _ _ (le_refl _)]
      congr 1
      exact ih (fun r hr => h r (List.mem_cons_of_mem w hr))

theorem splitGo_tokens : ∀ fuel (s : Str), s.length ≤ fuel →
    ∀ w ∈ splitGo fuel s, w ≠ [] ∧ ∀ c ∈ w, isSpaceCp c = false := by
  intro fuel
  induction fuel with
  | zero =>
    intro s h1 w hw
    have hs : s = [] := List.eq_nil_of_length_eq_zero (Nat.le_zero.mp h1)
    subst hs
    rw [splitGo_nil] at hw
    cases hw
  | succ f ih =>
    intro s h1 w hw
    cases s with
    | nil =>
      rw [splitGo_nil] at hw
      cases hw
    | cons c cs =>
      have hl : cs.length + 1 ≤ f + 1 := by simpa using h1
      by_cases hc : isSpaceCp c = true
      · rw [splitGo_space f cs hc] at hw
        exact ih cs (by omega) w hw
      · have hc' : isSpaceCp c = false := by simpa using hc
        rw [splitGo_tok f cs hc'] at hw
        rcases List.mem_cons.mp hw with rfl | hw2
        · refine ⟨by simp, ?_⟩
          intro x hx
          rcases List.mem_cons.mp hx with rfl | hx2
          · exact hc'
          · have hq := List.mem_takeWhile_imp hx2
            simpa using hq
        · have hd : (cs.dropWhile (fun d => !isSpaceCp d)).length ≤ cs.length :=
            (List.dropWhile_sublist _).length_le
          exact ih _ (by omega) w hw2

theorem splitWs_tokens {s : Str} : ∀ w ∈ splitWs s,
    w ≠ [] ∧ ∀ c ∈ w, isSpaceCp c = false :=
  splitGo_tokens s.length s (le_refl _)

theorem dropWhile_head_false {q : Nat → Bool} :
    ∀ {l : Str} {d : Nat} {r : Str}, l.dropWhile q = d :: r → q d = false := by
  intro l
  induction l with
  | nil => intro d r h; cases h
  | cons a as ih =>
    intro d r h
    by_cases ha : q a = true
    · rw [List.dropWhile_cons] at h
      rw [if_pos ha] at h
      exact ih h
    · have ha' : q a = false := by simpa using ha
      rw [List.dropWhile_cons, if_neg (by simp [ha'])] at h
      injection h with h1 h2
      subst h1
      exact ha'

theorem hyphGo_append_sep {d : Nat} (hw : isW d = false) (h45 : d ≠ 45) :
    ∀ fuel (p : Bool) (u rest : Str), (u ++ d :: rest).length ≤ fuel →
      hyphGo fuel p (u ++ d :: rest)
        = hyphGo u.length p u ++ d :: hyphGo rest.length false rest := by
  intro fuel
  induction fuel with
  | zero =>
    intro p u rest h
    simp [List.length_append] at h
  | succ f ih =>
    intro p u rest h
    cases u with
    | nil =>
      rw [List.nil_append, hyphGo_nil, List.nil_append]
      have hcond : (!p && isW d) = false := by simp [hw]
      rw [hyphGo_skip f rest hcond, hw]
      have hr : rest.length ≤ f := by simpa using h
      rw [hyphGo_fuel f rest.length false rest hr (le_refl _)]
    | cons c cs =>
      simp only [List.length_cons]
      have hlen : cs.length + 1 + (1 + rest.length) ≤ f + 1 := by
        have h0 := h
        simp [List.length_append] at h0
        omega
      by_cases hc : (!p && isW c) = true
      · have htw : ((c :: cs) ++ d :: rest).takeWhile isW
            = (c :: cs).takeWhile isW := takeWhile_sep hw _ _
        have hmt : matchTail (((c :: cs) ++ d :: rest).dropWhile isW)
            = (matchTail ((c :: cs).dropWhile isW)).map
                (fun pr => (pr.1, pr.2 ++ d :: rest)) := by
          rw [dropWhile_sep hw]
          exact matchTail_sep hw h45 _ _
        cases hm : matchTail ((c :: cs).dropWhile isW) with
        | none =>
          have hm2 : matchTail (((c :: cs) ++ d :: rest).dropWhile isW) = none := by
            rw [hmt, hm]
            rfl
          rw [List.cons_append] at hm2 ⊢
          rw [hyphGo_hit_none f _ hc hm2,
            ih true cs rest (by simp [List.length_append]; omega),
            hyphGo_hit_none cs.length cs hc hm]
          rfl
        | some pr =>
          obtain ⟨r2, t3⟩ := pr
          obtain ⟨hdec, hr2ne, ht3⟩ := hyph_decomp hm
          have hm2 : matchTail (((c :: cs) ++ d :: rest).dropWhile isW)
              = some (r2, t3 ++ d :: rest) := by
            rw [hmt, hm]
            rfl
          rw [List.cons_append] at hm2 htw ⊢
          rw [hyphGo_hit_some f _ hc hm2, htw,
            ih true t3 rest (by simp [List.length_append]; omega),
            hyphGo_hit_some cs.length cs hc hm,
            hyphGo_fuel cs.length t3.length true t3 (by omega) (le_refl _)]
          simp [List.append_assoc]
      · have hc' : (!p && isW c) = false := by simpa using hc
        rw [List.cons_append, hyphGo_skip f _ hc',
          ih (isW c) cs rest (by simp [List.length_append]; omega),
          hyphGo_skip cs.length cs hc']
        rfl

theorem splitWs_hyphenPass_aux : ∀ n (s : Str), s.length ≤ n →
    splitWs (hyphenPass s) = (splitWs s).map hyphenPass := by
  intro n
  induction n with
  | zero =>
    intro s h
    have hs : s = [] := List.eq_nil_of_length_eq_zero (Nat.le_zero.mp h)
    subst hs
    rfl
  | succ m ih =>
    intro s h
    cases s with
    | nil => rfl
    | cons c cs =>
      have hl : cs.length + 1 ≤ m + 1 := by simpa using h
      by_cases hc : isSpaceCp c = true
      · have hwc : isW c = false := isW_of_space hc
        have h1 : hyphenPass (c :: cs) = c :: hyphenPass cs := by
          show hyphGo (cs.length + 1) false (c :: cs) = _
          rw [hyphGo_skip cs.length cs (by simp [hwc]), hwc]
          rfl
        have h2 : splitWs (c :: hyphenPass cs) = splitWs (hyphenPass cs) := by
          show splitGo ((hyphenPass cs).length + 1) (c :: hyphenPass cs) = _
          exact splitGo_space _ _ hc
        have h3 : splitWs (c :: cs) = splitWs cs := by
          show splitGo (cs.length + 1) (c :: cs) = _
          exact splitGo_space _ _ hc
        rw [h1, h2, h3, ih cs (by omega)]
      · have hc' : isSpaceCp c = false := by simpa using hc
        cases hr : cs.dropWhile (fun x => !isSpaceCp x) with
        | nil =>
          have hns : ∀ x ∈ c :: cs, isSpaceCp x = false := by
            intro x hx
            rcases List.mem_cons.mp hx with rfl | hx2
            · exact hc'
            · have hq := List.dropWhile_eq_nil_iff.mp hr x hx2
              simpa using hq
          have hsplit : splitWs (c :: cs) = [c :: cs] :=
            splitWs_single (by simp) hns
          have hHns : ∀ x ∈ hyphenPass (c :: cs), isSpaceCp x = false :=
            nospace_of_shapeEq (shapeEq_hyphenPass _) hns
          have hHne : hyphenPass (c :: cs) ≠ [] := by
            intro hx
            have hll := length_hyphenPass (c :: cs)
            rw [hx] at hll
            simp at hll
          rw [hsplit, splitWs_single hHne hHns]
          rfl
        | cons d r =>
          have hdq : (fun x => !isSpaceCp x) d = false := dropWhile_head_false hr
          have hd : isSpaceCp d = true := by simpa using hdq
          have hdW : isW d = false := isW_of_space hd
          have hd45 : d ≠ 45 := space_ne45 hd
          have hdec : c :: cs = (c :: cs.takeWhile (fun x => !isSpaceCp x)) ++ d :: r := by
            rw [List.cons_append]
            congr 1
            rw [← hr]
            exact (List.takeWhile_append_dropWhile _ cs).symm
          have hrlen : r.length < cs.length := by
            have hsub : (cs.dropWhile (fun x => !isSpaceCp x)).length ≤ cs.length :=
              (List.dropWhile_sublist _).length_le
            rw [hr] at hsub
            simp only [List.length_cons] at hsub
            omega
          have hwns : ∀ x ∈ c :: cs.takeWhile (fun x => !isSpaceCp x),
              isSpaceCp x = false := by
            intro x hx
            rcases List.mem_cons.mp hx with rfl | hx2
            · exact hc'
            · have hq := List.mem_takeWhile_imp hx2
              simpa using hq
          have hH : hyphenPass (c :: cs)
              = hyphenPass (c :: cs.takeWhile (fun x => !isSpaceCp x)) ++
                  d :: hyphenPass r := by
            show hyphGo (c :: cs).length false (c :: cs) = _
            conv_lhs => rw [hdec]
            exact hyphGo_append_sep hdW hd45 _ false _ r
              (by rw [← hdec])
          have hHw := splitWs_single
            (w := hyphenPass (c :: cs.takeWhile (fun x => !isSpaceCp x)))
            (by
              intro hx
              have hll := length_hyphenPass (c :: cs.takeWhile (fun x => !isSpaceCp x))
              rw [hx] at hll
              simp at hll)
            (nospace_of_shapeEq (shapeEq_hyphenPass _) hwns)
          rw [hH]
          rw [show splitWs (hyphenPass (c :: cs.takeWhile (fun x => !isSpaceCp x)) ++
              d :: hyphenPass r)
            = splitGo (hyphenPass (c :: cs.takeWhile (fun x => !isSpaceCp x)) ++
              d :: hyphenPass r).length
              (hyphenPass (c :: cs.takeWhile (fun x => !isSpaceCp x)) ++
              d :: hyphenPass r) from rfl]
          rw [splitGo_sep hd
            (by
              intro hx
              have hll := length_hyphenPass (c :: cs.takeWhile (fun x => !isSpaceCp x))
              rw [hx] at hll
              simp at hll)
            (nospace_of_shapeEq (shapeEq_hyphenPass _) hwns) _ _ (le_refl _)]
          rw [show splitGo (hyphenPass r).length (hyphenPass r)
            = splitWs (hyphenPass r) from rfl]
          rw [ih r (by omega)]
          conv_rhs => rw [hdec]
          rw [show splitWs ((c :: cs.takeWhile (fun x => !isSpaceCp x)) ++ d :: r)
            = splitGo ((c :: cs.takeWhile (fun x => !isSpaceCp x)) ++ d :: r).length
              ((c :: cs.takeWhile (fun x => !isSpaceCp x)) ++ d :: r) from rfl]
          rw [splitGo_sep hd (by simp) hwns _ _ (le_refl _)]
          rw [show splitGo r.length r = splitWs r from rfl]
          rfl

theorem splitWs_hyphenPass (s : Str) :
    splitWs (hyphenPass s) = (splitWs s).map hyphenPass :=
  splitWs_hyphenPass_aux s.length s (le_refl _)

theorem idxOf_cons_self (n : Nat) (z : Str) : idxOf n (n :: z) = 0 := by
  simp [idxOf]

theorem idxOf_append_of_not_mem {n : Nat} {A : Str} (h : n ∉ A) (z : Str) :
    idxOf n (A ++ z) = A.length + idxOf n z := by
  induction A with
  | nil => simp
  | cons a as ih =>
    have hne : ¬ a = n := fun he => h (by rw [he]; exact List.mem_cons_self n as)
    have h2 : n ∉ as := fun hx => h (List.mem_cons_of_mem a hx)
    show idxOf n (a :: (as ++ z)) = (a :: as).length + idxOf n z
    simp [idxOf, hne, ih h2]
    omega

theorem idxOf_append_of_mem {n : Nat} {A : Str} (h : n ∈ A) (z : Str) :
    idxOf n (A ++ z) = idxOf n A := by
  induction A with
  | nil => cases h
  | cons a as ih =>
    by_cases ha : a = n
    · subst ha
      simp [idxOf]
    · have h2 : n ∈ as := by
        rcases List.mem_cons.mp h with h3 | h3
        · exact absurd h3.symm ha
        · exact h3
      show idxOf n (a :: (as ++ z)) = idxOf n (a :: as)
      simp [idxOf, ha, ih h2]

theorem idxOf_lt_length {n : Nat} {A : Str} (h : n ∈ A) :
    idxOf n A < A.length := by
  induction A with
  | nil => cases h
  | cons a as ih =>
    by_cases ha : a = n
    · subst ha
      simp [idxOf]
    · have h2 : n ∈ as := by
        rcases List.mem_cons.mp h with h3 | h3
        · exact absurd h3.symm ha
        · exact h3
      have h3 := ih h2
      simp [idxOf, ha]
      omega

theorem mem_split_first {n : Nat} : ∀ {w : Str}, n ∈ w →
    ∃ A z, w = A ++ n :: z ∧ n ∉ A := by
  intro w
  induction w with
  | nil => intro h; cases h
  | cons a as ih =>
    intro h
    by_cases ha : a = n
    · subst ha
      exact ⟨[], as, rfl, by simp⟩
    · have h2 : n ∈ as := by
        rcases List.mem_cons.mp h with h3 | h3
        · exact absurd h3.symm ha
        · exact h3
      obtain ⟨A, z, hz, hA⟩ := ih h2
      refine ⟨a :: A, z, by rw [hz]; rfl, ?_⟩
      intro hx
      rcases List.mem_cons.mp hx with h4 | h4
      · exact ha h4.symm
      · exact hA h4

theorem map_appOp_low (B : Str) : B.map (appOp CaseOp.low) = lowerStr B := by
  induction B with
  | nil => rfl
  | cons b bs ih =>
    show appOp CaseOp.low b :: bs.map (appOp CaseOp.low)
      = toLowerCp b :: bs.map toLowerCp
    rw [ih]
    rfl

/-- The case-operation list of the parenthetical branch of `procWord`:
    capitalize on the prefix, keep the opening paren, lower-case the
    interior, keep the closing paren and the suffix. -/
def parenOps (A B C : Str) : List CaseOp :=
  capOps A ++ CaseOp.keep :: (B.map (fun _ => CaseOp.low) ++
    CaseOp.keep :: C.map (fun _ => CaseOp.keep))

theorem procWord_paren {w : Str} (first : Bool) (h40 : (40 : Nat) ∈ w)
    (h41 : (41 : Nat) ∈ w) (hlt : idxOf 40 w < idxOf 41 w) :
    ∃ A B C, w = A ++ 40 :: (B ++ 41 :: C) ∧
      A.length = idxOf 40 w ∧
      B.length + A.length + 1 = idxOf 41 w ∧
      C.length + idxOf 41 w + 1 = w.length ∧
      procWord first w = zipApply (parenOps A B C) w := by
  obtain ⟨A, z, hw, hA⟩ := mem_split_first h40
  have hi40 : idxOf 40 w = A.length := by
    rw [hw, idxOf_append_of_not_mem hA, idxOf_cons_self]
    omega
  have h41A : (41 : Nat) ∉ A := by
    intro hx
    have h1 : idxOf 41 w = idxOf 41 A := by
      rw [hw]
      exact idxOf_append_of_mem hx _
    have h2 := idxOf_lt_length hx
    omega
  have h41z : (41 : Nat) ∈ z := by
    rw [hw] at h41
    rcases List.mem_append.mp h41 with h | h
    · exact absurd h h41A
    · rcases List.mem_cons.mp h with h | h
      · exact absurd h (by decide)
      · exact h
  obtain ⟨B, C, hz, hB⟩ := mem_split_first h41z
  have hwfull : w = A ++ 40 :: (B ++ 41 :: C) := by rw [hw, hz]
  have hi41 : idxOf 41 w = A.length + (B.length + 1) := by
    rw [hwfull, idxOf_append_of_not_mem h41A]
    have hstep : idxOf 41 (40 :: (B ++ 41 :: C)) = idxOf 41 (B ++ 41 :: C) + 1 := by
      simp [idxOf]
    rw [hstep, idxOf_append_of_not_mem hB, idxOf_cons_self]
  have hwassoc : w = (A ++ 40 :: B) ++ 41 :: C := by
    rw [hwfull]
    simp
  have hlenw : w.length = A.length + B.length + C.length + 2 := by
    rw [hwfull]
    simp [List.length_append]
    omega
  have htake40 : w.take (idxOf 40 w) = A := by
    rw [hi40, hwfull]
    exact List.take_left A _
  have htake41 : w.take (idxOf 41 w) = A ++ 40 :: B := by
    have hlen2 : idxOf 41 w = (A ++ 40 :: B).length := by
      simp [List.length_append]
      omega
    rw [hlen2, hwassoc]
    exact List.take_left _ _
  have hdrop41 : w.drop (idxOf 41 w + 1) = C := by
    have hlen2 : idxOf 41 w + 1 = (A ++ 40 :: B).length + 1 := by
      simp [List.length_append]
      omega
    rw [hlen2, hwassoc, List.drop_append 1]
    rfl
  have hinner : (w.take (idxOf 41 w)).drop (idxOf 40 w + 1) = B := by
    rw [htake41, hi40, show A.length + 1 = A.length + 1 from rfl,
      List.drop_append 1]
    rfl
  have hbranch : procWord first w
      = capitalizeStr A ++ 40 :: (lowerStr B ++ 41 :: C) := by
    show (if 40 ∈ w ∧ 41 ∈ w then _ else _) = _
    rw [if_pos ⟨h40, h41⟩, htake40, hinner, hdrop41]
    simp
  have hzip : zipApply (parenOps A B C) w
      = capitalizeStr A ++ 40 :: (lowerStr B ++ 41 :: C) := by
    rw [hwfull]
    show zipApply (capOps A ++ CaseOp.keep :: (B.map (fun _ => CaseOp.low) ++
      CaseOp.keep :: C.map (fun _ => CaseOp.keep))) (A ++ 40 :: (B ++ 41 :: C)) = _
    rw [zipApply_append _ _ (capOps_length A), zipApply_capOps]
    congr 1
    show appOp CaseOp.keep 40 :: zipApply (B.map (fun _ => CaseOp.low) ++
      CaseOp.keep :: C.map (fun _ => CaseOp.keep)) (B ++ 41 :: C) = _
    rw [zipApply_append _ _ (by simp : (B.map (fun _ => CaseOp.low)).length = B.length)]
    rw [zipApply_constOps, map_appOp_low]
    congr 1
    show lowerStr B ++ appOp CaseOp.keep 41 :: zipApply (C.map (fun _ => CaseOp.keep)) C
      = lowerStr B ++ 41 :: C
    rw [zipApply_keep]
    rfl
  exact ⟨A, B, C, hwfull, hi40.symm, by omega, by omega, by rw [hbranch, hzip]⟩

theorem toUpperCp_toUpperCp (c : Nat) : toUpperCp (toUpperCp c) = toUpperCp c := by
  simp only [toUpperCp]
  split_ifs with h1 h2 <;>
    simp only [Bool.and_eq_true, decide_eq_true_eq, Bool.and_eq_false_iff,
      decide_eq_false_iff_not] at * <;> omega

theorem toLowerCp_toLowerCp (c : Nat) : toLowerCp (toLowerCp c) = toLowerCp c := by
  simp only [toLowerCp]
  split_ifs with h1 h2 <;>
    simp only [Bool.and_eq_true, decide_eq_true_eq, Bool.and_eq_false_iff,
      decide_eq_false_iff_not] at * <;> omega

theorem toLowerCp_toUpperCp (c : Nat) : toLowerCp (toUpperCp c) = toLowerCp c := by
  simp only [toUpperCp, toLowerCp]
  split_ifs with h1 h2 h3 <;>
    simp only [Bool.and_eq_true, decide_eq_true_eq, Bool.and_eq_false_iff,
      decide_eq_false_iff_not] at * <;> omega

theorem lowerStr_lowerStr (s : Str) : lowerStr (lowerStr s) = lowerStr s := by
  induction s with
  | nil => rfl
  | cons c cs ih =>
    show toLowerCp (toLowerCp c) :: lowerStr (lowerStr cs)
      = toLowerCp c :: lowerStr cs
    rw [toLowerCp_toLowerCp, ih]

theorem lowerStr_capitalizeStr (s : Str) :
    lowerStr (capitalizeStr s) = lowerStr s := by
  cases s with
  | nil => rfl
  | cons c cs =>
    show toLowerCp (toUpperCp c) :: lowerStr (lowerStr cs)
      = toLowerCp c :: lowerStr cs
    rw [toLowerCp_toUpperCp, lowerStr_lowerStr]

theorem capitalize_idem (s : Str) :
    capitalizeStr (capitalizeStr s) = capitalizeStr s := by
  cases s with
  | nil => rfl
  | cons c cs =>
    show toUpperCp (toUpperCp c) :: lowerStr (lowerStr cs)
      = toUpperCp c :: lowerStr cs
    rw [toUpperCp_toUpperCp, lowerStr_lowerStr]

theorem length_capitalizeStr (s : Str) : (capitalizeStr s).length = s.length := by
  cases s with
  | nil => rfl
  | cons c cs => simp [capitalizeStr, lowerStr]

theorem lowerStr_as_zip (s : Str) :
    lowerStr s = zipApply (s.map (fun _ => CaseOp.low)) s := by
  rw [zipApply_constOps, map_appOp_low]

theorem mem_capitalizeStr {n : Nat} (hn : isLetterCp n = false) (s : Str) :
    n ∈ capitalizeStr s ↔ n ∈ s := by
  rw [← zipApply_capOps]
  exact mem_zipApply hn _ _

theorem mem_lowerStr {n : Nat} (hn : isLetterCp n = false) (s : Str) :
    n ∈ lowerStr s ↔ n ∈ s := by
  rw [lowerStr_as_zip]
  exact mem_zipApply hn _ _

theorem smallWords_no45 : ∀ u ∈ smallWords, (45 : Nat) ∉ u := by decide

theorem smallWords_no40 : ∀ u ∈ smallWords, (40 : Nat) ∉ u := by decide

theorem smallWords_lower : ∀ u ∈ smallWords, lowerStr u = u := by decide

theorem procWord_eq_np {w : Str} (first : Bool)
    (hnp : ¬((40 : Nat) ∈ w ∧ (41 : Nat) ∈ w)) :
    procWord first w = if first then (if 45 ∈ w then w else capitalizeStr w)
      else if lowerStr w ∈ smallWords then lowerStr w
      else if 45 ∈ w ∨ isUpperCp (w.headD 0) then w
      else capitalizeStr w := by
  show (if (40 : Nat) ∈ w ∧ (41 : Nat) ∈ w then _ else _) = _
  rw [if_neg hnp]

theorem procWord_stable {w : Str} (first : Bool)
    (hfix : hyphenPass w = w)
    (hpok : (40 : Nat) ∈ w → (41 : Nat) ∈ w → idxOf 40 w < idxOf 41 w) :
    procWord first (hyphenPass (procWord first w)) = procWord first w := by
  by_cases hp : (40 : Nat) ∈ w ∧ (41 : Nat) ∈ w
  · obtain ⟨h40, h41⟩ := hp
    have hlt := hpok h40 h41
    obtain ⟨A, B, C, hwfull, hA, hB, hC, hrep⟩ := procWord_paren first h40 h41 hlt
    set π := parenOps A B C with hπ
    set σ := hyphOpsGo w.length false w with hσ
    have hσw : zipApply σ w = w := by
      rw [hσ, ← hyphenPass_rep]
      exact hfix
    have hHpw : hyphenPass (zipApply π w) = zipApply σ (zipApply π w) := by
      show hyphGo (zipApply π w).length false (zipApply π w) = _
      rw [length_zipApply, hyphGo_rep,
        hyphOpsGo_shape w.length false (shapeEq_zipApply π w)]
    rw [hrep, hHpw]
    set y := zipApply σ (zipApply π w) with hy
    have h40y : (40 : Nat) ∈ y := by
      rw [hy]
      exact (mem_zipApply (by decide) σ _).mpr ((mem_zipApply (by decide) π w).mpr h40)
    have h41y : (41 : Nat) ∈ y := by
      rw [hy]
      exact (mem_zipApply (by decide) σ _).mpr ((mem_zipApply (by decide) π w).mpr h41)
    have hi40y : idxOf 40 y = idxOf 40 w := by
      rw [hy, idxOf_zipApply (by decide), idxOf_zipApply (by decide)]
    have hi41y : idxOf 41 y = idxOf 41 w := by
      rw [hy, idxOf_zipApply (by decide), idxOf_zipApply (by decide)]
    have hleny : y.length = w.length := by
      rw [hy, length_zipApply, length_zipApply]
    have hlty : idxOf 40 y < idxOf 41 y := by
      rw [hi40y, hi41y]
      exact hlt
    obtain ⟨A2, B2, C2, hy2, hA2, hB2, hC2, hrep2⟩ :=
      procWord_paren first h40y h41y hlty
    have hlA : A2.length = A.length := by omega
    have hlB : B2.length = B.length := by omega
    have hlC : C2.length = C.length := by omega
    have hops : parenOps A2 B2 C2 = π := by
      rw [hπ]
      unfold parenOps
      rw [capOps_congr hlA, mapConst_congr CaseOp.low hlB,
        mapConst_congr CaseOp.keep hlC]
    rw [hrep2, hops, hy]
    exact zipApply_triple π σ hσw
  · rw [procWord_eq_np first hp]
    by_cases hfst : first = true
    · rw [if_pos hfst]
      by_cases h45 : (45 : Nat) ∈ w
      · rw [if_pos h45, hfix, procWord_eq_np first hp, if_pos hfst, if_pos h45]
      · rw [if_neg h45]
        have h45c : (45 : Nat) ∉ capitalizeStr w :=
          fun hx => h45 ((mem_capitalizeStr (by decide) w).mp hx)
        rw [hyphenPass_no45 h45c]
        have hnp2 : ¬((40 : Nat) ∈ capitalizeStr w ∧ (41 : Nat) ∈ capitalizeStr w) :=
          fun hx => hp ⟨(mem_capitalizeStr (by decide) w).mp hx.1,
            (mem_capitalizeStr (by decide) w).mp hx.2⟩
        rw [procWord_eq_np first hnp2, if_pos hfst, if_neg h45c, capitalize_idem]
    · rw [if_neg hfst]
      by_cases hsw : lowerStr w ∈ smallWords
      · rw [if_pos hsw]
        have h45l : (45 : Nat) ∉ lowerStr w := smallWords_no45 _ hsw
        rw [hyphenPass_no45 h45l]
        have hnp2 : ¬((40 : Nat) ∈ lowerStr w ∧ (41 : Nat) ∈ lowerStr w) :=
          fun hx => smallWords_no40 _ hsw hx.1
        rw [procWord_eq_np first hnp2, if_neg hfst, smallWords_lower _ hsw,
          if_pos hsw]
      · rw [if_neg hsw]
        by_cases hkeep : (45 : Nat) ∈ w ∨ isUpperCp (w.headD 0) = true
        · rw [if_pos hkeep, hfix, procWord_eq_np first hp, if_neg hfst,
            if_neg hsw, if_pos hkeep]
        · rw [if_neg hkeep]
          have h45 : (45 : Nat) ∉ w := fun hx => hkeep (Or.inl hx)
          have h45c : (45 : Nat) ∉ capitalizeStr w :=
            fun hx => h45 ((mem_capitalizeStr (by decide) w).mp hx)
          rw [hyphenPass_no45 h45c]
          have hnp2 : ¬((40 : Nat) ∈ capitalizeStr w ∧ (41 : Nat) ∈ capitalizeStr w) :=
            fun hx => hp ⟨(mem_capitalizeStr (by decide) w).mp hx.1,
              (mem_capitalizeStr (by decide) w).mp hx.2⟩
          rw [procWord_eq_np first hnp2, if_neg hfst]
          have hsw2 : lowerStr (capitalizeStr w) ∉ smallWords := by
            rw [lowerStr_capitalizeStr]
            exact hsw
          rw [if_neg hsw2]
          by_cases hkeep2 : (45 : Nat) ∈ capitalizeStr w ∨
            isUpperCp ((capitalizeStr w).headD 0) = true
          · rw [if_pos hkeep2]
          · rw [if_neg hkeep2, capitalize_idem]

theorem procWord_token_facts {w : Str} (first : Bool) (hne : w ≠ [])
    (hns : ∀ c ∈ w, isSpaceCp c = false)
    (hpok : (40 : Nat) ∈ w → (41 : Nat) ∈ w → idxOf 40 w < idxOf 41 w) :
    procWord first w ≠ [] ∧ ∀ c ∈ procWord first w, isSpaceCp c = false := by
  by_cases hp : (40 : Nat) ∈ w ∧ (41 : Nat) ∈ w
  · obtain ⟨h40, h41⟩ := hp
    obtain ⟨A, B, C, hwfull, hA, hB, hC, hrep⟩ :=
      procWord_paren first h40 h41 (hpok h40 h41)
    constructor
    · rw [hrep]
      intro hx
      have hl := congrArg List.length hx
      rw [length_zipApply] at hl
      simp only [List.length_nil] at hl
      exact hne (List.eq_nil_of_length_eq_zero hl)
    · rw [hrep]
      exact nospace_of_shapeEq (shapeEq_zipApply _ _) hns
  · have hcap : capitalizeStr w ≠ [] ∧ ∀ c ∈ capitalizeStr w, isSpaceCp c = false := by
      constructor
      · intro hx
        have h2 := length_capitalizeStr w
        rw [hx] at h2
        simp only [List.length_nil] at h2
        exact hne (List.eq_nil_of_length_eq_zero h2.symm)
      · rw [← zipApply_capOps]
        exact nospace_of_shapeEq (shapeEq_zipApply _ _) hns
    have hlow : lowerStr w ≠ [] ∧ ∀ c ∈ lowerStr w, isSpaceCp c = false := by
      constructor
      · intro hx
        have h2 := congrArg List.length hx
        simp only [lowerStr, List.length_map, List.length_nil] at h2
        exact hne (List.eq_nil_of_length_eq_zero h2)
      · rw [lowerStr_as_zip]
        exact nospace_of_shapeEq (shapeEq_zipApply _ _) hns
    rw [procWord_eq_np first hp]
    split_ifs
    all_goals first
      | exact ⟨hne, hns⟩
      | exact hcap
      | exact hlow

theorem procWords_cons (b : Bool) (w : Str) (ws : List Str) :
    procWords b (w :: ws) = procWord b w :: procWords false ws := rfl

theorem procWords_stable : ∀ (ws : List Str) (b : Bool),
    (∀ w ∈ ws, hyphenPass w = w ∧
      ((40 : Nat) ∈ w → (41 : Nat) ∈ w → idxOf 40 w < idxOf 41 w)) →
    procWords b ((procWords b ws).map hyphenPass) = procWords b ws := by
  intro ws
  induction ws with
  | nil => intro b _; rfl
  | cons w ws2 ih =>
    intro b h
    have hw := h w (List.mem_cons_self w ws2)
    rw [procWords_cons, List.map_cons, procWords_cons,
      procWord_stable b hw.1 hw.2,
      ih false (fun x hx => h x (List.mem_cons_of_mem w hx))]

theorem procWords_tokens : ∀ (ws : List Str) (b : Bool),
    (∀ w ∈ ws, w ≠ [] ∧ (∀ c ∈ w, isSpaceCp c = false) ∧
      ((40 : Nat) ∈ w → (41 : Nat) ∈ w → idxOf 40 w < idxOf 41 w)) →
    ∀ v ∈ procWords b ws, v ≠ [] ∧ ∀ c ∈ v, isSpaceCp c = false := by
  intro ws
  induction ws with
  | nil => intro b _ v hv; cases hv
  | cons w ws2 ih =>
    intro b h v hv
    rw [procWords_cons] at hv
    rcases List.mem_cons.mp hv with rfl | hv2
    · have hw := h w (List.mem_cons_self w ws2)
      exact procWord_token_facts b hw.1 hw.2.1 hw.2.2
    · exact ih false (fun x hx => h x (List.mem_cons_of_mem w hx)) v hv2

theorem to_title_case_eq (s : Str) :
    to_title_case s = if splitWs (hyphenPass s) = [] then hyphenPass s
      else joinSpace (procWords true (splitWs (hyphenPass s))) := rfl

/-- The paren-order side condition: every whitespace token of the
    hyphen-processed string that contains both parens has its first `(`
    before its first `)`. -/
abbrev parenOK (s : Str) : Prop :=
  ∀ w ∈ splitWs (hyphenPass s),
    (40 : Nat) ∈ w → (41 : Nat) ∈ w → idxOf 40 w < idxOf 41 w

theorem titlecase_idem {s : Str} (hpok : parenOK s) :
    to_title_case (to_title_case s) = to_title_case s := by
  rw [to_title_case_eq s]
  by_cases hws : splitWs (hyphenPass s) = []
  · rw [if_pos hws, to_title_case_eq (hyphenPass s), hyphenPass_idem,
      if_pos hws]
  · rw [if_neg hws]
    have htok : ∀ w ∈ splitWs (hyphenPass s),
        w ≠ [] ∧ ∀ c ∈ w, isSpaceCp c = false :=
      fun w hw => splitWs_tokens w hw
    have hfixtok : ∀ w ∈ splitWs (hyphenPass s), hyphenPass w = w := by
      intro w hw
      rw [splitWs_hyphenPass] at hw
      obtain ⟨w0, hw0, rfl⟩ := List.mem_map.mp hw
      exact hyphenPass_idem w0
    have hall : ∀ w ∈ splitWs (hyphenPass s), hyphenPass w = w ∧
        ((40 : Nat) ∈ w → (41 : Nat) ∈ w → idxOf 40 w < idxOf 41 w) :=
      fun w hw => ⟨hfixtok w hw, hpok w hw⟩
    have hrtok : ∀ v ∈ procWords true (splitWs (hyphenPass s)),
        v ≠ [] ∧ ∀ c ∈ v, isSpaceCp c = false :=
      procWords_tokens _ true
        (fun w hw => ⟨(htok w hw).1, (htok w hw).2, (hall w hw).2⟩)
    rw [to_title_case_eq (joinSpace (procWords true (splitWs (hyphenPass s))))]
    have hsplitr : splitWs (hyphenPass (joinSpace
        (procWords true (splitWs (hyphenPass s)))))
        = (procWords true (splitWs (hyphenPass s))).map hyphenPass := by
      rw [splitWs_hyphenPass, joinSpace_split _ hrtok]
    have hrsne : procWords true (splitWs (hyphenPass s)) ≠ [] := by
      cases hcase : splitWs (hyphenPass s) with
      | nil => exact absurd hcase hws
      | cons w ws2 =>
        rw [procWords_cons]
        simp
    have hmapne : (procWords true (splitWs (hyphenPass s))).map hyphenPass
        ≠ [] := by
      simpa using hrsne
    rw [hsplitr, if_neg hmapne]
    congr 1
    exact procWords_stable _ true hall

/-- C1: the spec asserts unconditional idempotence of both the text
    normalizer and the schema migrator.  The migrator half holds (for
    tables whose target keys are not themselves source keys, true of both
    shipped tables), and `to_title_case` is idempotent on every string
    whose tokens have their first `(` before their first `)` — but not in
    general, so the combined claim is refuted by `claim_C1_counterexample`
    and this theorem proves the corrected statement. -/
theorem claim_C1 :
    (∀ s : Str, parenOK s →
      to_title_case (to_title_case s) = to_title_case s) ∧
    (∀ (m : List (String × String)) (fs : List (String × JVal)),
      disjTable m → renameKeys m (renameKeys m fs) = renameKeys m fs) ∧
    (∀ d : JVal,
      standardize_patterns (standardize_patterns d) = standardize_patterns d) :=
  ⟨fun _ h => titlecase_idem h,
   fun _ fs hd => renameKeys_idem fs hd,
   standardize_patterns_idem⟩

/-- C1 counterexample: `to_title_case` is not idempotent on the string
    ")(" — the parenthetical branch of the token loop inserts fresh "()"
    when the token has ")" before "(", so every pass grows the string. -/
theorem claim_C1_counterexample :
    to_title_case (to_title_case (enc ")(")) ≠ to_title_case (enc ")(") := by
  decide

/-- Witness for C1 at concrete inputs: the paren-order condition and the
    migrator hypotheses are discharged by evaluation. -/
theorem claim_C1_witness :
    parenOK (enc "grab (opponent) low-block") ∧
    to_title_case (to_title_case (enc "grab (opponent) low-block"))
      = to_title_case (enc "grab (opponent) low-block") ∧
    disjTable patternMapping ∧
    renameKeys patternMapping (renameKeys patternMapping
        [("description", JVal.str (enc "x"))])
      = renameKeys patternMapping [("description", JVal.str (enc "x"))] ∧
    standardize_patterns (standardize_patterns JVal.null)
      = standardize_patterns JVal.null :=
  ⟨by decide, claim_C1.1 _ (by decide), by decide,
   claim_C1.2.1 _ _ (by decide), claim_C1.2.2 _⟩

/-- C2 counterexample: the spec expects
    `to_title_case "grab (opponent's head)" = "Grab (opponent's head)"`,
    but the per-token rule capitalizes the second token "head)" (no paren
    pair inside it), so the code returns "Grab (opponent's Head)". -/
theorem claim_C2_counterexample :
    to_title_case (enc "grab (opponent" ++ [39] ++ enc "s head)")
      ≠ enc "Grab (opponent" ++ [39] ++ enc "s head)" := by
  decide

/-- C2 (amended): the first two specified casings hold; the third input
    actually yields "Grab (opponent's Head)" because the parenthetical
    rule applies per whitespace token, not across the whole string; and on
    a hyphen-free, whitespace-free token containing `(` before `)` the
    normalizer capitalizes the prefix, lower-cases the interior and
    preserves the suffix verbatim. -/
theorem claim_C2 :
    to_title_case (enc "low outer forearm block")
      = enc "Low Outer Forearm Block" ∧
    to_title_case (enc "3-step sparring") = enc "3-Step Sparring" ∧
    to_title_case (enc "grab (opponent" ++ [39] ++ enc "s head)")
      = enc "Grab (opponent" ++ [39] ++ enc "s Head)" ∧
    (∀ s : Str, s ≠ [] → (∀ c ∈ s, isSpaceCp c = false) → (45 : Nat) ∉ s →
      (40 : Nat) ∈ s → (41 : Nat) ∈ s → idxOf 40 s < idxOf 41 s →
      to_title_case s = capitalizeStr (s.take (idxOf 40 s)) ++ 40 ::
        lowerStr ((s.take (idxOf 41 s)).drop (idxOf 40 s + 1)) ++ 41 ::
          s.drop (idxOf 41 s + 1)) := by
  refine ⟨by decide, by decide, by decide, ?_⟩
  intro s hne hns h45 h40 h41 hlt
  rw [to_title_case_eq s, hyphenPass_no45 h45, splitWs_single hne hns]
  rw [if_neg (by simp)]
  rw [show procWords true [s] = [procWord true s] from rfl]
  rw [show joinSpace [procWord true s] = procWord true s from rfl]
  show (if (40 : Nat) ∈ s ∧ (41 : Nat) ∈ s then _ else _) = _
  rw [if_pos ⟨h40, h41⟩]

/-- Witness for the amended C2 paren rule at a concrete token. -/
theorem claim_C2_witness :
    ((enc "x(aB)yz" ≠ [] ∧ (∀ c ∈ enc "x(aB)yz", isSpaceCp c = false) ∧
      (45 : Nat) ∉ enc "x(aB)yz" ∧ (40 : Nat) ∈ enc "x(aB)yz" ∧
      (41 : Nat) ∈ enc "x(aB)yz" ∧
      idxOf 40 (enc "x(aB)yz") < idxOf 41 (enc "x(aB)yz")) ∧
    to_title_case (enc "x(aB)yz")
      = capitalizeStr ((enc "x(aB)yz").take (idxOf 40 (enc "x(aB)yz"))) ++ 40 ::
        lowerStr (((enc "x(aB)yz").take (idxOf 41 (enc "x(aB)yz"))).drop
            (idxOf 40 (enc "x(aB)yz") + 1)) ++ 41 ::
          (enc "x(aB)yz").drop (idxOf 41 (enc "x(aB)yz") + 1)) :=
  ⟨⟨by decide, by decide, by decide, by decide, by decide, by decide⟩,
   claim_C2.2.2.2 _ (by decide) (by decide) (by decide) (by decide)
     (by decide) (by decide)⟩

end TKD
